import Mathlib

/-!
# mphf: a reversible hash between named-choice models and integers / strings

Shallow embedding of `src/index.js`.

* BigInt values are `Int`; BigInt `/` and `%` are `Int.tdiv` and `Int.tmod`.
* A schema node is a value of `Part`; a subpart given as a bare string is the
  node `Part.base` that the constructor of `Part` puts in its place.
* A thrown value is a `JsError`; a function that can throw returns `Except`.
* The intermediate binary strings of the codec are lists of characters.
* The properties through which a node reaches its subparts (`this[key]`) are
  kept in a table built the way the constructor defines them: one entry under
  the key of the subpart and one under its index.  The other members of a
  node object are found by `this[key]` as well: the own properties `key`,
  `subparts`, `cardinality`, `placeValues` or `offsets`, `parent` and `index`,
  and what the prototype chain holds (`hash`, `unhash`, `path`,
  `constructor`, and the members of `Object.prototype`).  `getMember` tells
  them apart.
* `p.hash` and `p.unhash` are the calls `p.hash(...)` and `p.unhash(...)`: a
  subpart keyed `hash` or `unhash` shadows the method on its node.
* The message of an error object is not modelled.  The source builds it from
  `this.path`; the evaluation of `this.path` is taken to end with a string, as
  it does in every tree in which no subpart is keyed `parent` or `path`.
* A mapping model lists its entries in the order `Object.keys` reports them:
  array indices first, in ascending order, then the other keys in the order
  of their creation.  `setProp` keeps that order, and does what the
  assignment `model[key] = value` does for the key `__proto__`.
-/

namespace Mphf

/-! ## Values -/

/-- A thrown value: a plain string, or an error object of the given class
(the message of an error object is not modelled).  `hostDependent` is the
value thrown where `this[key]` reaches `parent`, `index`, `path` or
`__proto__`: the code throws there in every case, but whether it throws a
`TypeError`, a `ReferenceError` or a string depends on the place of the node
in a larger tree and on the prototype objects, which a `Part` value does not
record. -/
inductive JsError where
  | thrown (value : String)
  | typeError
  | referenceError
  | rangeError
  | hostDependent
  deriving DecidableEq

/-- A model value: `null`, `undefined`, a string, or a mapping from keys to
models. -/
inductive Model where
  | null
  | undefined
  | str (s : String)
  | obj (entries : List (String × Model))

/-- What `hash` returns and `unhash` takes: a BigInt or a string. -/
inductive Hash where
  | bigint (n : Int)
  | string (s : String)
  deriving DecidableEq

/-- A schema node: the base `Part`, a `Tuple` or a `Choice`. -/
inductive Part where
  | base (key : String)
  | tuple (key : String) (subparts : List Part)
  | choice (key : String) (subparts : List Part)

/-- The `key` property of a node. -/
def Part.key : Part → String
  | .base key => key
  | .tuple key _ => key
  | .choice key _ => key

/-- The `subparts` property of a node (`undefined` for the base type, which
is never iterated over). -/
def Part.subparts : Part → List Part
  | .base _ => []
  | .tuple _ subparts => subparts
  | .choice _ subparts => subparts

/-! ## Numeral codec: `Part.radix`, `Part.encode`, `Part.decode` -/

/-- The alphabet `Part.radix`. -/
def radix : String :=
  "123456789abcdefghijklmnopqrstuvwxyzABCDEFGHIJKLMNOPQRSTUVWXYZ-_0"

/-- `s.indexOf(c)` for a one-character `c`: the position of the first
occurrence, or `-1`. -/
def indexOf : List Char → Char → Int
  | [], _ => -1
  | x :: xs, c => if x = c then 0 else if indexOf xs c = -1 then -1 else indexOf xs c + 1

/-- `x.toString(2)` for a BigInt `x`. -/
def toStringRadix2 (x : Int) : List Char :=
  if x < 0 then '-' :: Nat.toDigits 2 x.natAbs else Nat.toDigits 2 x.natAbs

/-- `s.padStart(targetLength, c)` for a one-character pad string. -/
def padStart (s : List Char) (targetLength : Nat) (c : Char) : List Char :=
  List.replicate (targetLength - s.length) c ++ s

/-- Value of a string of binary digits (`parseInt(s, 2)`, and `BigInt` of the
string after its `0b` prefix). -/
def parseBinary (s : List Char) : Nat :=
  s.foldl (fun acc c => 2 * acc + (if c = '1' then 1 else 0)) 0

/-- The `while` loop of `encode` (lines 8-14), run for at most `fuel` rounds;
returns `(reducedBigint, charmCount)`. -/
def encodeLoop : Nat → Int → Nat → Int × Nat
  | 0, reducedBigint, charmCount => (reducedBigint, charmCount)
  | fuel + 1, reducedBigint, charmCount =>
    if reducedBigint > 0 then
      if reducedBigint ≥ 2 ^ (charmCount * 6) then
        encodeLoop fuel (reducedBigint - 2 ^ (charmCount * 6)) (charmCount + 1)
      else (reducedBigint, charmCount)
    else (reducedBigint, charmCount)

/-- The loop of lines 18-19: the sum of `2 ** (i * 6)` for `i < charmCount`. -/
def charmLengthOffset (charmCount : Nat) : Int :=
  (List.range charmCount).foldl (fun acc i => acc + 2 ^ (i * 6)) 0

/-- The symbol `this.radix[v]` as appended to the result (`undefined` is
appended as text when there is no such position). -/
def radixAt (v : Nat) : List Char :=
  match radix.toList.get? v with
  | some c => [c]
  | none => "undefined".toList

/-- The loop of lines 27-28: one symbol for each slice of six binary digits,
for `i = 0, 6, ...` below `charmCount * 6`. -/
def encodeSymbols (s : List Char) (charmCount : Nat) : List Char :=
  (List.range charmCount).flatMap (fun k => radixAt (parseBinary ((s.drop (k * 6)).take 6)))

/-- `Part.encode(n)`.  The `while` loop subtracts at least one in each round,
so `n` rounds of fuel are never used up (`encodeLoop_exit`). -/
def encode (n : Int) : String :=
  let charmCount := (encodeLoop n.toNat n 0).2
  let binaryString := toStringRadix2 (n - charmLengthOffset charmCount)
  let charmRoundedBinaryLength := charmCount * 6
  let charmRoundedBinaryString := padStart binaryString charmRoundedBinaryLength '0'
  String.mk (encodeSymbols charmRoundedBinaryString charmCount)

/-- The loop of `decode` (lines 36-41) over the characters of the input; the
two accumulators hold the binary digits after the `0b` prefix.  An unknown
character is thrown as it is. -/
def decodeLoop : List Char → List Char → List Char → Except JsError (List Char × List Char)
  | [], rounded, lengthOffset => .ok (rounded, lengthOffset)
  | character :: rest, rounded, lengthOffset =>
    let characterValue := indexOf radix.toList character
    if characterValue = -1 ∨ characterValue ≥ 64 then .error (.thrown (String.mk [character]))
    else decodeLoop rest (rounded ++ padStart (Nat.toDigits 2 characterValue.toNat) 6 '0')
      (lengthOffset ++ "000001".toList)

/-- `Part.decode(hash)`. -/
def decode (hash : String) : Except JsError Int :=
  match decodeLoop hash.toList ['0'] ['0'] with
  | .error e => .error e
  | .ok (rounded, lengthOffset) => .ok ((parseBinary rounded : Int) + (parseBinary lengthOffset : Int))

/-! ## Construction -/

/-- The loop of the constructor of `Tuple` (lines 92-95) over the
cardinalities of the reversed subparts: returns the place values, listed in
the order of the subparts, and the product. -/
def tupleLoop : List Int → List Int → Int → List Int × Int
  | [], placeValues, product => (placeValues, product)
  | c :: cs, placeValues, product => tupleLoop cs (product :: placeValues) (product * c)

/-- The loop of the constructor of `Choice` (lines 149-152) over the
cardinalities of the subparts: returns the offsets, listed in the order of the
subparts, and the sum. -/
def choiceLoop : List Int → List Int → Int → List Int × Int
  | [], offsets, sum => (offsets, sum)
  | c :: cs, offsets, sum => choiceLoop cs (offsets ++ [sum]) (sum + c)

mutual
/-- The `cardinality` property of a node. -/
def Part.cardinality : Part → Int
  | .base _ => 1
  | .tuple _ subparts => (tupleLoop (cardinalities subparts).reverse [] 1).2
  | .choice _ subparts => (choiceLoop (cardinalities subparts) [] 0).2
/-- The cardinalities of a list of subparts. -/
def cardinalities : List Part → List Int
  | [] => []
  | p :: ps => p.cardinality :: cardinalities ps
end

/-- The `placeValues` map of a `Tuple`, listed in the order of its subparts. -/
def placeValues (subparts : List Part) : List Int :=
  (tupleLoop (cardinalities subparts).reverse [] 1).1

/-- The `offsets` map of a `Choice`, listed in the order of its subparts. -/
def offsets (subparts : List Part) : List Int :=
  (choiceLoop (cardinalities subparts) [] 0).1

/-- Entry of a `placeValues` or `offsets` map for the subpart at position `i`
(the maps have one entry for each subpart). -/
def tableGet (table : List Int) (i : Nat) : Int :=
  table.getD i 0

/-- Position stored under a property name in the table of subpart properties. -/
def getProp : List (String × Nat) → String → Option Nat
  | [], _ => none
  | (name, i) :: rest, k => if name = k then some i else getProp rest k

/-- One property of `Object.defineProperties(this, ...)` at line 64.  The
node already has the own properties of lines 49-53: `key` and `subparts`
cannot be redefined, so a subpart under one of these names throws a
`TypeError`; `cardinality` is writable, so a subpart under that name is
accepted, and the constructor of the subclass then puts the BigInt back
(lines 99 and 156), which leaves no entry in the table.  Any other new name
is added; a name that already holds another subpart cannot be redefined and
throws a `TypeError`. -/
def defineProperty (props : List (String × Nat)) (name : String) (index : Nat) :
    Except JsError (List (String × Nat)) :=
  if name = "key" ∨ name = "subparts" then .error .typeError
  else if name = "cardinality" then .ok props
  else
    match getProp props name with
    | none => .ok (props ++ [(name, index)])
    | some j => if j = index then .ok props else .error .typeError

/-- The `forEach` of the constructor of `Part` (lines 58-68): every subpart is
defined on the node under its key and under its index. -/
def defineSubparts : List Part → Nat → List (String × Nat) → Except JsError (List (String × Nat))
  | [], _, props => .ok props
  | p :: ps, index, props =>
    match defineProperty props p.key index with
    | .error e => .error e
    | .ok props1 =>
      match defineProperty props1 (toString index) index with
      | .error e => .error e
      | .ok props2 => defineSubparts ps (index + 1) props2

/-- The table of subpart properties of a node with the given subparts (empty
when the constructor throws). -/
def subpartProps (subparts : List Part) : List (String × Nat) :=
  match defineSubparts subparts 0 [] with
  | .ok props => props
  | .error _ => []

/-- Names of the function-valued members that a node finds on its prototype
chain: `constructor`, `hash` and `unhash` of the classes, and the methods of
`Object.prototype`. -/
def hostFunctions : List String :=
  ["constructor", "hash", "unhash", "__defineGetter__", "__defineSetter__",
    "__lookupGetter__", "__lookupSetter__", "hasOwnProperty", "isPrototypeOf",
    "propertyIsEnumerable", "toLocaleString", "toString", "valueOf"]

/-- Names of the members of a node object other than its subparts: the own
properties defined by the constructors, the accessors `path` and `__proto__`,
and the functions of the prototype chain. -/
def memberNames : List String :=
  ["key", "subparts", "cardinality", "placeValues", "offsets", "parent", "index", "path",
    "__proto__"] ++ hostFunctions

/-- What `this[key]` finds on a node: a subpart with its position; a value
that is no node (a string, a BigInt, an array, a `Map` or a function), of
which only the truthiness matters; the parent node or `undefined` for
`parent`; a number or `undefined` for `index`; the path of a node with the
empty key, which is empty at the root only; the prototype object for
`__proto__`; or `undefined`. -/
inductive Member where
  | subpart (index : Nat) (subpart : Part)
  | value (truthy : Bool)
  | parent
  | index
  | path
  | proto
  | undefined

/-- The member found by `this[name]` on a node with the given key, subparts
and cardinality; `table` is the name of the map of the class, `placeValues`
for a `Tuple` and `offsets` for a `Choice`.  Own properties come first: `key`,
`subparts` and `cardinality` (lines 49-53, 99, 156), the subparts (line 64),
the map of the class, `parent` and `index` (line 60); then the prototype
chain. -/
def getMember (table : String) (key : String) (subparts : List Part) (cardinality : Int)
    (name : String) : Member :=
  if name = "key" then .value (decide (key ≠ ""))
  else if name = "subparts" then .value true
  else if name = "cardinality" then .value (decide (cardinality ≠ 0))
  else
    match getProp (subpartProps subparts) name with
    | some i =>
      match subparts.get? i with
      | some p => .subpart i p
      | none => .undefined
    | none =>
      if name = table then .value true
      else if name = "parent" then .parent
      else if name = "index" then .index
      else if name = "path" then (if key = "" then .path else .value true)
      else if name = "__proto__" then .proto
      else if hostFunctions.contains name then .value true
      else .undefined

/-- Whether a subpart of the node has the key `name`.  Line 64 defines the
subpart as an own property of the node; under the name `hash` or `unhash` it
shadows the method of the class, and a call of that method on the node throws
a `TypeError`, the value under the name being no function. -/
def shadows (subparts : List Part) (name : String) : Bool :=
  subparts.any (fun q => decide (q.key = name))

/-- Whether a node has an own property `parent` or `index` before it is
attached to a parent: a subpart under one of these keys. -/
def Part.hasPositionKey (p : Part) : Bool :=
  p.subparts.any (fun q => decide (q.key = "parent") || decide (q.key = "index"))

mutual
/-- Whether the constructors build the node without throwing: the subparts
are built; each of them accepts the properties `parent` and `index` of line
60; their property definitions on the node do not clash; and the name of the
map of the class (`placeValues` at line 98, `offsets` at line 155) is not
taken by a subpart. -/
def Part.constructs : Part → Bool
  | .base _ => true
  | .tuple _ subparts =>
    allConstruct subparts && !subparts.any Part.hasPositionKey &&
      (match defineSubparts subparts 0 [] with
       | .ok props => (getProp props "placeValues").isNone
       | .error _ => false)
  | .choice _ subparts =>
    allConstruct subparts && !subparts.any Part.hasPositionKey &&
      (match defineSubparts subparts 0 [] with
       | .ok props => (getProp props "offsets").isNone
       | .error _ => false)
/-- Whether every node of a list is built without throwing. -/
def allConstruct : List Part → Bool
  | [] => true
  | p :: ps => p.constructs && allConstruct ps
end

/-! ## `hash` -/

/-- The number read from a string of decimal digits, after `acc`. -/
def parseDigits : List Char → Nat → Option Nat
  | [], acc => some acc
  | c :: cs, acc =>
    if 48 ≤ c.toNat ∧ c.toNat ≤ 57 then parseDigits cs (10 * acc + (c.toNat - 48)) else none

/-- The array index that a property key stands for, if any: the key is the
decimal form, without leading zeros, of an integer below `2 ^ 32 - 1`. -/
def arrayIndex (key : String) : Option Nat :=
  match key.toList with
  | [] => none
  | c :: cs =>
    if c = '0' ∧ cs ≠ [] then none
    else
      match parseDigits (c :: cs) 0 with
      | some i => if i < 4294967295 then some i else none
      | none => none

/-- A new value for the entry of `key`, which keeps its place. -/
def replaceProp : List (String × Model) → String → Model → List (String × Model)
  | [], _, _ => []
  | (k, v) :: rest, key, value =>
    if k = key then (k, value) :: rest else (k, v) :: replaceProp rest key value

/-- A new entry for the array index `i`: it goes after the array indices
below `i`, before every other entry. -/
def insertIndex : List (String × Model) → Nat → String → Model → List (String × Model)
  | [], _, key, value => [(key, value)]
  | (k, v) :: rest, i, key, value =>
    match arrayIndex k with
    | some j =>
      if j < i then (k, v) :: insertIndex rest i key value else (key, value) :: (k, v) :: rest
    | none => (key, value) :: (k, v) :: rest

/-- The assignment `model[key] = value` on the entries of a mapping that
started as `{}`.  The key `__proto__` reaches the setter of
`Object.prototype` and creates no entry; an entry that exists gets the new
value; a new array index goes among the array indices; any other new key goes
last. -/
def setProp (entries : List (String × Model)) (key : String) (value : Model) :
    List (String × Model) :=
  if key = "__proto__" then entries
  else if (entries.map Prod.fst).contains key then replaceProp entries key value
  else
    match arrayIndex key with
    | some i => insertIndex entries i key value
    | none => entries ++ [(key, value)]

mutual
/-- The method `hash(model, format)` of the three classes.  The calls on
subparts pass `"bigint"` and get a BigInt back; the branch for a string result
stands for the arithmetic on it and is never taken.  A call `node.hash(...)`
on a node with a subpart keyed `hash` finds the subpart, not the method, and
throws a `TypeError`.  In `Choice.hash` only a member that is an instance of
`Part` passes line 176: a subpart, the parent node, or the prototype object
reached by `__proto__`; for the last two the map `offsets` has no entry and
the addition at line 180 throws, unless the call at line 179 threw before. -/
def Part.hash : Part → Model → String → Except JsError Hash
  | .base _, model, format =>
    match model with
    | .null => .ok (if format = "string" then .string "" else .bigint 0)
    | _ => .error (.thrown
        "Hash Error: The base Part type does not support hashing any model besides null.")
  | .tuple key subparts, model, format =>
    if shadows subparts "hash" then .error .typeError
    else match model with
    | .obj entries =>
      if entries.length = 0 then .ok (.bigint 0)
      else
        match tupleHashLoop key subparts entries 0 with
        | .error e => .error e
        | .ok n =>
          if n ≥ (Part.tuple key subparts).cardinality then .error .rangeError
          else .ok (if format = "string" then .string (encode n) else .bigint n)
    | _ => .error .typeError
  | .choice name subparts, model, format =>
    if shadows subparts "hash" then .error .typeError
    else match model with
    | .str key =>
      match getMember "offsets" name subparts (Part.choice name subparts).cardinality key with
      | .subpart i _ =>
        let n := tableGet (offsets subparts) i + 0
        if n ≥ (Part.choice name subparts).cardinality then .error .rangeError
        else .ok (if format = "string" then .string (encode n) else .bigint n)
      | .parent => .error .hostDependent
      | .proto => .error .hostDependent
      | _ => .error .referenceError
    | .obj [] => .ok (.bigint 0)
    | .obj [(key, value)] =>
      match getMember "offsets" name subparts (Part.choice name subparts).cardinality key with
      | .subpart i subpart =>
        match subpart.hash value "bigint" with
        | .error e => .error e
        | .ok (.string _) => .error .typeError
        | .ok (.bigint m) =>
          let n := tableGet (offsets subparts) i + m
          if n ≥ (Part.choice name subparts).cardinality then .error .rangeError
          else .ok (if format = "string" then .string (encode n) else .bigint n)
      | .parent => .error .hostDependent
      | .proto => .error .hostDependent
      | _ => .error .referenceError
    | .obj (_ :: _ :: _) => .error .referenceError
    | _ => .error .typeError
/-- The loop of `Tuple.hash` (lines 114-121) of the node with the given key
and subparts, over the entries of the model, with the running sum `n`.  A
member that is no node and is truthy has no method `hash`, so the call at line
120 throws a `TypeError`; a falsy one is refused at line 117. -/
def tupleHashLoop : String → List Part → List (String × Model) → Int → Except JsError Int
  | _, _, [], n => .ok n
  | name, subparts, (key, value) :: rest, n =>
    match getMember "placeValues" name subparts (Part.tuple name subparts).cardinality key with
    | .subpart i subpart =>
      match subpart.hash value "bigint" with
      | .error e => .error e
      | .ok (.string _) => .error .typeError
      | .ok (.bigint m) =>
        tupleHashLoop name subparts rest (n + m * tableGet (placeValues subparts) i)
    | .value true => .error .typeError
    | .value false => .error .referenceError
    | .undefined => .error .referenceError
    | .parent => .error .hostDependent
    | .index => .error .hostDependent
    | .path => .error .hostDependent
    | .proto => .error .hostDependent
end

/-! ## `unhash` -/

mutual
/-- The method `unhash(n, "bigint")` of the three classes, for a BigInt `n`.
A call `node.unhash(...)` on a node with a subpart keyed `unhash` finds the
subpart, not the method, and throws a `TypeError`. -/
def Part.unhash : Part → Int → Except JsError Model
  | .base _, n =>
    if n ≠ 0 then .error (.thrown ("Unhash Error: Hash " ++ toString n ++
      " is outside the range of the base Part (max " ++ toString ((1 : Int) - 1) ++ ")."))
    else .ok .null
  | .tuple _ subparts, n =>
    if shadows subparts "unhash" then .error .typeError
    else tupleUnhashLoop subparts (placeValues subparts) n []
  | .choice _ subparts, n =>
    if shadows subparts "unhash" then .error .typeError
    else choiceUnhashLoop subparts (offsets subparts) 0 n
/-- The loop of `Tuple.unhash` (lines 132-136) over the subparts and their
place values, with the running `n` and the entries of `model`.  BigInt
division by zero throws a `RangeError`. -/
def tupleUnhashLoop : List Part → List Int → Int → List (String × Model) → Except JsError Model
  | [], _, _, model => .ok (.obj model)
  | _ :: _, [], _, _ => .error .typeError
  | subpart :: rest, placeValue :: placeValues, n, model =>
    if placeValue = 0 then .error .rangeError
    else
      match subpart.unhash (Int.tdiv n placeValue) with
      | .error e => .error e
      | .ok value => tupleUnhashLoop rest placeValues (Int.tmod n placeValue) (setProp model subpart.key value)
/-- The loop of `Choice.unhash` (lines 190-197) from position `i` on, over
the subparts that are left; falling out of the loop returns `undefined`. -/
def choiceUnhashLoop : List Part → List Int → Nat → Int → Except JsError Model
  | [], _, _, _ => .ok .undefined
  | subpart :: rest, offsets, i, n =>
    if rest.length = 0 ∨ n < tableGet offsets (i + 1) then
      if subpart.cardinality = 1 then .ok (.str subpart.key)
      else
        match subpart.unhash (n - tableGet offsets i) with
        | .error e => .error e
        | .ok value => .ok (.obj [(subpart.key, value)])
    else choiceUnhashLoop rest offsets (i + 1) n
end

/-- The method `unhash(hash, "string")` (also `unhash(hash)`), for a string
`hash`: the same body run on `Part.decode(hash)`. -/
def Part.unhashString (p : Part) (hash : String) : Except JsError Model :=
  if shadows p.subparts "unhash" then .error .typeError
  else
    match decode hash with
    | .error e => .error e
    | .ok n => p.unhash n

/-! ## The schema of the test script -/

/-- A `Choice` over bare key strings. -/
def choiceOf (key : String) (keys : List String) : Part :=
  .choice key (keys.map Part.base)

/-- The schema `searchState` of `test.js` (lines 4-12). -/
def searchState : Part :=
  .tuple "search" [
    choiceOf "category" ["electronics", "clothing", "books"],
    choiceOf "price" ["under_25", "25_to_50", "50_to_100", "over_100"],
    .tuple "features" [
      choiceOf "waterproof" ["yes", "no"],
      choiceOf "wireless" ["yes", "no"],
      choiceOf "color" ["black", "white", "red", "blue"]]]

/-- The schema `Tuple("t", [Choice("a", ["x","y"]), Choice("b", ["p","q","r"])])`
of the examples. -/
def exampleTuple : Part :=
  .tuple "t" [choiceOf "a" ["x", "y"], choiceOf "b" ["p", "q", "r"]]

/-- The schema `Tuple("t", [Choice("__proto__", ["a","b"]), Choice("z", ["c","d"])])`:
the key of its first subpart names the accessor of `Object.prototype`. -/
def protoTuple : Part :=
  .tuple "t" [choiceOf "__proto__" ["a", "b"], choiceOf "z" ["c", "d"]]

/-- The schema `Tuple("t", [Choice("cardinality", ["a","b"]), "z"])`: the key
of its first subpart names the property that holds the cardinality. -/
def cardinalityTuple : Part :=
  .tuple "t" [choiceOf "cardinality" ["a", "b"], .base "z"]

/-! ## Partial models -/

/-- The zero-indexed state of a subpart: the model `child.unhash(0n, "bigint")`
(`undefined` where that call throws). -/
def zeroState (child : Part) : Model :=
  match child.unhash 0 with
  | .ok model => model
  | .error _ => .undefined

/-- A mapping extended by the zero-indexed state of every subpart whose key it
omits. -/
def withDefaults (subparts : List Part) (entries : List (String × Model)) :
    List (String × Model) :=
  entries ++ (subparts.filter (fun child => !(entries.map Prod.fst).contains child.key)).map
    (fun child => (child.key, zeroState child))

/-! ## Trees whose keys name no member -/

mutual
/-- Whether no subpart of the tree has a key that names a member of a node
object (`memberNames`). -/
def Part.plainKeys : Part → Bool
  | .base _ => true
  | .tuple _ subparts => allPlainKeys subparts
  | .choice _ subparts => allPlainKeys subparts
/-- Whether no node in a list of trees, and no subpart below them, has a key
that names a member of a node object. -/
def allPlainKeys : List Part → Bool
  | [] => true
  | p :: ps => !memberNames.contains p.key && p.plainKeys && allPlainKeys ps
end

/-! ## Trees without an empty `Choice` -/

mutual
/-- Whether every `Choice` of the tree has at least one subpart. -/
def Part.everyChoiceNonempty : Part → Bool
  | .base _ => true
  | .tuple _ subparts => allChoicesNonempty subparts
  | .choice _ subparts => !subparts.isEmpty && allChoicesNonempty subparts
/-- Whether every `Choice` in a list of trees has at least one subpart. -/
def allChoicesNonempty : List Part → Bool
  | [] => true
  | p :: ps => p.everyChoiceNonempty && allChoicesNonempty ps
end

/-! # Theorems -/

/-! ## Induction over schema trees -/

/-- Induction over nodes: a property that holds for the base type, and for a
`Tuple` and a `Choice` whenever it holds for all their subparts, holds for
every node. -/
theorem Part.induct {P : Part → Prop} (hbase : ∀ key, P (.base key))
    (htuple : ∀ key subparts, (∀ p ∈ subparts, P p) → P (.tuple key subparts))
    (hchoice : ∀ key subparts, (∀ p ∈ subparts, P p) → P (.choice key subparts)) :
    ∀ p, P p :=
  fun p => Part.rec (motive_1 := P) (motive_2 := fun l => ∀ q ∈ l, P q)
    hbase (fun key subparts ih => htuple key subparts ih)
    (fun key subparts ih => hchoice key subparts ih)
    (fun q hq => by cases hq)
    (fun head tail ih1 ih2 q hq => by
      rcases List.mem_cons.mp hq with h | h
      · exact h ▸ ih1
      · exact ih2 q h) p

/-! ## The tables built by the constructors -/

theorem cardinalities_eq_map (ps : List Part) : cardinalities ps = ps.map Part.cardinality := by
  induction ps with
  | nil => simp [cardinalities]
  | cons p ps ih => simp [cardinalities, ih]

theorem tupleLoop_append (l1 l2 : List Int) (pvs : List Int) (product : Int) :
    tupleLoop (l1 ++ l2) pvs product =
      tupleLoop l2 (tupleLoop l1 pvs product).1 (tupleLoop l1 pvs product).2 := by
  induction l1 generalizing pvs product with
  | nil => simp [tupleLoop]
  | cons c cs ih => simp [tupleLoop, ih]

theorem tupleLoop_reverse_cons (c : Int) (cs : List Int) :
    tupleLoop (c :: cs).reverse [] 1 =
      ((tupleLoop cs.reverse [] 1).2 :: (tupleLoop cs.reverse [] 1).1,
        (tupleLoop cs.reverse [] 1).2 * c) := by
  rw [List.reverse_cons, tupleLoop_append]
  simp [tupleLoop]

theorem tupleLoop_product (cs : List Int) : (tupleLoop cs.reverse [] 1).2 = cs.prod := by
  induction cs with
  | nil => simp [tupleLoop]
  | cons c cs ih => rw [tupleLoop_reverse_cons]; simp [ih, mul_comm]

theorem cardinality_tuple (key : String) (subparts : List Part) :
    (Part.tuple key subparts).cardinality = (subparts.map Part.cardinality).prod := by
  rw [Part.cardinality, tupleLoop_product, cardinalities_eq_map]

theorem placeValues_nil : placeValues [] = [] := by
  simp [placeValues, cardinalities, tupleLoop]

theorem placeValues_cons (p : Part) (ps : List Part) :
    placeValues (p :: ps) = (ps.map Part.cardinality).prod :: placeValues ps := by
  simp only [placeValues, cardinalities]
  rw [tupleLoop_reverse_cons, tupleLoop_product, cardinalities_eq_map]

theorem choiceLoop_sum (cs offs : List Int) (sum : Int) :
    (choiceLoop cs offs sum).2 = sum + cs.sum := by
  induction cs generalizing offs sum with
  | nil => simp [choiceLoop]
  | cons c cs ih => simp [choiceLoop, ih, add_assoc]

theorem choiceLoop_length (cs offs : List Int) (sum : Int) :
    (choiceLoop cs offs sum).1.length = offs.length + cs.length := by
  induction cs generalizing offs sum with
  | nil => simp [choiceLoop]
  | cons c cs ih => simp [choiceLoop, ih]; omega

theorem choiceLoop_acc (cs offs : List Int) (sum : Int) :
    (choiceLoop cs offs sum).1 = offs ++ (choiceLoop cs [] sum).1 := by
  induction cs generalizing offs sum with
  | nil => simp [choiceLoop]
  | cons c cs ih =>
    simp only [choiceLoop, List.nil_append]
    rw [ih (offs ++ [sum]), ih [sum]]
    simp

theorem choiceLoop_cons (c : Int) (cs : List Int) (sum : Int) :
    (choiceLoop (c :: cs) [] sum).1 = sum :: (choiceLoop cs [] (sum + c)).1 := by
  simp only [choiceLoop, List.nil_append]
  rw [choiceLoop_acc]
  simp

theorem choiceLoop_getD (cs : List Int) (sum : Int) (i : Nat) (hi : i < cs.length) :
    (choiceLoop cs [] sum).1.getD i 0 = sum + (cs.take i).sum := by
  induction cs generalizing sum i with
  | nil => simp at hi
  | cons c cs ih =>
    rw [choiceLoop_cons]
    cases i with
    | zero => simp
    | succ j =>
      have h := ih (sum + c) j (by simpa using hi)
      simp only [List.getD_cons_succ, List.take_succ_cons, List.sum_cons]
      rw [h, add_assoc]

theorem cardinality_choice (key : String) (subparts : List Part) :
    (Part.choice key subparts).cardinality = (subparts.map Part.cardinality).sum := by
  rw [Part.cardinality, choiceLoop_sum, cardinalities_eq_map, zero_add]

theorem offsets_length (subparts : List Part) : (offsets subparts).length = subparts.length := by
  simp [offsets, choiceLoop_length, cardinalities_eq_map]

theorem tableGet_offsets (subparts : List Part) (i : Nat) (hi : i < subparts.length) :
    tableGet (offsets subparts) i = ((subparts.map Part.cardinality).take i).sum := by
  rw [tableGet, offsets, choiceLoop_getD _ _ _ (by simpa [cardinalities_eq_map] using hi),
    cardinalities_eq_map, zero_add]

theorem placeValues_length (subparts : List Part) :
    (placeValues subparts).length = subparts.length := by
  induction subparts with
  | nil => simp [placeValues_nil]
  | cons p ps ih => simp [placeValues_cons, ih]

theorem tableGet_placeValues (subparts : List Part) (i : Nat) (hi : i < subparts.length) :
    tableGet (placeValues subparts) i = ((subparts.drop (i + 1)).map Part.cardinality).prod := by
  induction subparts generalizing i with
  | nil => simp at hi
  | cons p ps ih =>
    rw [placeValues_cons]
    cases i with
    | zero => simp [tableGet]
    | succ j =>
      have h := ih j (by simpa using hi)
      simpa [tableGet] using h

/-- Every cardinality is a non-negative integer. -/
theorem cardinality_nonneg : ∀ p : Part, 0 ≤ p.cardinality := by
  apply Part.induct
  · intro key; simp [Part.cardinality]
  · intro key subparts ih
    rw [cardinality_tuple]
    apply List.prod_nonneg
    intro a ha
    obtain ⟨p, hp, rfl⟩ := List.mem_map.mp ha
    exact ih p hp
  · intro key subparts ih
    rw [cardinality_choice]
    apply List.sum_nonneg
    intro a ha
    obtain ⟨p, hp, rfl⟩ := List.mem_map.mp ha
    exact ih p hp

/-! ## The table of subpart properties -/

theorem getProp_append_of_some {l1 : List (String × Nat)} {k : String} {j : Nat}
    (l2 : List (String × Nat)) (h : getProp l1 k = some j) : getProp (l1 ++ l2) k = some j := by
  induction l1 with
  | nil => simp [getProp] at h
  | cons e rest ih =>
    obtain ⟨name, i⟩ := e
    simp only [List.cons_append, getProp] at h ⊢
    split
    · rename_i hk; simpa [hk] using h
    · rename_i hk; simp only [hk, if_false] at h; exact ih h

theorem getProp_append_of_none {l1 : List (String × Nat)} {k : String}
    (l2 : List (String × Nat)) (h : getProp l1 k = none) : getProp (l1 ++ l2) k = getProp l2 k := by
  induction l1 with
  | nil => simp
  | cons e rest ih =>
    obtain ⟨name, i⟩ := e
    simp only [List.cons_append, getProp] at h ⊢
    split
    · rename_i hk; simp [hk] at h
    · rename_i hk; simp only [hk, if_false] at h; exact ih h

theorem defineProperty_ok {props props' : List (String × Nat)} {name : String} {index : Nat}
    (h : defineProperty props name index = .ok props') :
    (name ≠ "cardinality" → getProp props' name = some index) ∧ name ≠ "key" ∧
      name ≠ "subparts" ∧ ∀ k j, getProp props k = some j → getProp props' k = some j := by
  unfold defineProperty at h
  split at h
  · cases h
  · rename_i hks
    have hkey : name ≠ "key" := fun hk => hks (Or.inl hk)
    have hsub : name ≠ "subparts" := fun hk => hks (Or.inr hk)
    split at h
    · rename_i hcard
      simp only [Except.ok.injEq] at h
      subst h
      exact ⟨fun hne => absurd hcard hne, hkey, hsub, fun k j hk => hk⟩
    · split at h
      · rename_i hnone
        simp only [Except.ok.injEq] at h
        subst h
        refine ⟨fun _ => ?_, hkey, hsub, fun k j hk => getProp_append_of_some _ hk⟩
        rw [getProp_append_of_none _ hnone]
        simp [getProp]
      · rename_i j hsome
        split at h
        · rename_i hj
          simp only [Except.ok.injEq] at h
          subst h; subst hj
          exact ⟨fun _ => hsome, hkey, hsub, fun k j hk => hk⟩
        · cases h

theorem defineSubparts_ok : ∀ (ps : List Part) (index : Nat) (props props' : List (String × Nat)),
    defineSubparts ps index props = .ok props' →
    (∀ k j, getProp props k = some j → getProp props' k = some j) ∧
      (∀ i p, ps.get? i = some p → p.key ≠ "key" ∧ p.key ≠ "subparts" ∧
        (p.key ≠ "cardinality" → getProp props' p.key = some (index + i))) := by
  intro ps
  induction ps with
  | nil =>
    intro index props props' h
    simp only [defineSubparts, Except.ok.injEq] at h
    subst h
    exact ⟨fun k j hk => hk, fun i p hp => by simp at hp⟩
  | cons q qs ih =>
    intro index props props' h
    simp only [defineSubparts] at h
    split at h
    · cases h
    · rename_i props1 h1
      split at h
      · cases h
      · rename_i props2 h2
        obtain ⟨hkey, hk1, hk2, hmono1⟩ := defineProperty_ok h1
        obtain ⟨_, _, _, hmono2⟩ := defineProperty_ok h2
        obtain ⟨hmono3, hrest⟩ := ih (index + 1) props2 props' h
        refine ⟨fun k j hk => hmono3 k j (hmono2 k j (hmono1 k j hk)), ?_⟩
        intro i p hp
        cases i with
        | zero =>
          simp only [List.get?_cons_zero, Option.some.injEq] at hp
          subst hp
          exact ⟨hk1, hk2, fun hne => hmono3 _ _ (hmono2 _ _ (hkey hne))⟩
        | succ i =>
          simp only [List.get?_cons_succ] at hp
          obtain ⟨h3, h4, h5⟩ := hrest i p hp
          refine ⟨h3, h4, fun hne => ?_⟩
          rw [h5 hne]; congr 1; omega

theorem allConstruct_iff (ps : List Part) :
    allConstruct ps = true ↔ ∀ p ∈ ps, p.constructs = true := by
  induction ps with
  | nil => simp [allConstruct]
  | cons p ps ih => simp [allConstruct, ih]

theorem constructs_tuple {key : String} {subparts : List Part}
    (h : (Part.tuple key subparts).constructs = true) :
    (∀ p ∈ subparts, p.constructs = true) ∧ ∃ props, defineSubparts subparts 0 [] = .ok props := by
  simp only [Part.constructs, Bool.and_eq_true, allConstruct_iff] at h
  refine ⟨h.1.1, ?_⟩
  cases hd : defineSubparts subparts 0 [] with
  | error e => rw [hd] at h; simp at h
  | ok props => exact ⟨props, rfl⟩

theorem constructs_choice {key : String} {subparts : List Part}
    (h : (Part.choice key subparts).constructs = true) :
    (∀ p ∈ subparts, p.constructs = true) ∧ ∃ props, defineSubparts subparts 0 [] = .ok props := by
  simp only [Part.constructs, Bool.and_eq_true, allConstruct_iff] at h
  refine ⟨h.1.1, ?_⟩
  cases hd : defineSubparts subparts 0 [] with
  | error e => rw [hd] at h; simp at h
  | ok props => exact ⟨props, rfl⟩

/-- In a node that was built, `this[key]` for the key of a subpart other than
`cardinality` is that subpart. -/
theorem getMember_key {subparts : List Part} {props : List (String × Nat)}
    (h : defineSubparts subparts 0 [] = .ok props) {i : Nat} {p : Part}
    (hp : subparts.get? i = some p) (hcard : p.key ≠ "cardinality")
    (table key : String) (cardinality : Int) :
    getMember table key subparts cardinality p.key = .subpart i p := by
  obtain ⟨h1, h2, h3⟩ := (defineSubparts_ok subparts 0 [] props h).2 i p hp
  have h4 := h3 hcard
  simp only [getMember, subpartProps, h, h1, h2, hcard, if_false, h4, Nat.zero_add, hp]

/-- In a node that was built, two subparts with the same key, other than
`cardinality`, are the same subpart. -/
theorem key_injective {subparts : List Part} {props : List (String × Nat)}
    (h : defineSubparts subparts 0 [] = .ok props) {i j : Nat} {p q : Part}
    (hp : subparts.get? i = some p) (hq : subparts.get? j = some q) (hk : p.key = q.key)
    (hcard : p.key ≠ "cardinality") : i = j := by
  have h1 := ((defineSubparts_ok subparts 0 [] props h).2 i p hp).2.2 hcard
  have h2 := ((defineSubparts_ok subparts 0 [] props h).2 j q hq).2.2 (hk ▸ hcard)
  rw [hk, h2] at h1
  simpa using h1.symm

/-! ## Keys that name no member -/

theorem allPlainKeys_iff (ps : List Part) :
    allPlainKeys ps = true ↔ ∀ p ∈ ps, p.key ∉ memberNames ∧ p.plainKeys = true := by
  induction ps with
  | nil => simp [allPlainKeys]
  | cons p ps ih => simp [allPlainKeys, ih, and_assoc]

theorem plainKeys_tuple {key : String} {subparts : List Part}
    (h : (Part.tuple key subparts).plainKeys = true) :
    ∀ p ∈ subparts, p.key ∉ memberNames ∧ p.plainKeys = true := by
  simpa only [Part.plainKeys, allPlainKeys_iff] using h

theorem plainKeys_choice {key : String} {subparts : List Part}
    (h : (Part.choice key subparts).plainKeys = true) :
    ∀ p ∈ subparts, p.key ∉ memberNames ∧ p.plainKeys = true := by
  simpa only [Part.plainKeys, allPlainKeys_iff] using h

theorem shadows_eq_false {subparts : List Part} {name : String}
    (h : ∀ p ∈ subparts, p.key ≠ name) : shadows subparts name = false := by
  rw [Bool.eq_false_iff]
  intro hs
  simp only [shadows, List.any_eq_true, decide_eq_true_eq] at hs
  obtain ⟨p, hp, hk⟩ := hs
  exact h p hp hk

/-- In a tree whose keys name no member, no subpart shadows a method. -/
theorem shadows_plain {subparts : List Part} {name : String}
    (h : ∀ p ∈ subparts, p.key ∉ memberNames ∧ p.plainKeys = true) (hname : name ∈ memberNames) :
    shadows subparts name = false :=
  shadows_eq_false (fun p hp hk => (h p hp).1 (hk ▸ hname))

theorem ne_cardinality {k : String} (h : k ∉ memberNames) : k ≠ "cardinality" := by
  intro hk; subst hk; exact h (by decide)

theorem ne_proto {k : String} (h : k ∉ memberNames) : k ≠ "__proto__" := by
  intro hk; subst hk; exact h (by decide)

/-! ## Round trip -/

theorem bigint_ne_string : ¬ ("bigint" = "string") := by decide

theorem insertIndex_perm (model : List (String × Model)) (i : Nat) (key : String)
    (value : Model) : (insertIndex model i key value).Perm ((key, value) :: model) := by
  induction model with
  | nil => simp [insertIndex]
  | cons e rest ih =>
    obtain ⟨k, v⟩ := e
    simp only [insertIndex]
    split
    · split
      · exact (List.Perm.cons _ ih).trans (List.Perm.swap _ _ _)
      · exact List.Perm.refl _
    · exact List.Perm.refl _

/-- A new key other than `__proto__` adds one entry to a mapping. -/
theorem setProp_perm (model : List (String × Model)) (key : String) (value : Model)
    (hproto : key ≠ "__proto__") (h : ∀ e ∈ model, e.1 ≠ key) :
    (setProp model key value).Perm (model ++ [(key, value)]) := by
  have hnot : (model.map Prod.fst).contains key = false := by
    rw [Bool.eq_false_iff]
    intro hc
    have hmem : key ∈ model.map Prod.fst := by simpa using hc
    obtain ⟨e, he, hk⟩ := List.mem_map.mp hmem
    exact h e he hk
  unfold setProp
  rw [if_neg hproto, hnot]
  simp only [Bool.false_eq_true, if_false]
  split
  · exact (insertIndex_perm _ _ _ _).trans (List.perm_append_singleton _ _).symm
  · exact List.Perm.refl _

/-- One round of the loop of `Tuple.hash` that does not throw: the key reached
a subpart, and the subpart hashed the value. -/
theorem tupleHashLoop_cons_ok {name : String} {subparts : List Part} {key : String}
    {value : Model} {rest : List (String × Model)} {a r : Int}
    (h : tupleHashLoop name subparts ((key, value) :: rest) a = .ok r) :
    ∃ i p m, getMember "placeValues" name subparts (Part.tuple name subparts).cardinality key =
        .subpart i p ∧ p.hash value "bigint" = .ok (.bigint m) ∧
      tupleHashLoop name subparts rest (a + m * tableGet (placeValues subparts) i) = .ok r := by
  simp only [tupleHashLoop] at h
  split at h
  · rename_i i p hget
    split at h
    · cases h
    · cases h
    · rename_i m hm
      exact ⟨i, p, m, hget, hm, h⟩
  all_goals cases h

/-- The order of the entries does not change what `Tuple.hash` returns. -/
theorem tupleHashLoop_perm (name : String) (subparts : List Part)
    {l1 l2 : List (String × Model)} (hperm : l1.Perm l2) :
    ∀ a r, tupleHashLoop name subparts l1 a = .ok r →
      tupleHashLoop name subparts l2 a = .ok r := by
  induction hperm with
  | nil => intro a r h; exact h
  | cons x _ ih =>
    intro a r h
    obtain ⟨key, value⟩ := x
    obtain ⟨i, p, m, hget, hm, hrest⟩ := tupleHashLoop_cons_ok h
    simp only [tupleHashLoop, hget, hm]
    exact ih _ _ hrest
  | swap x y l =>
    intro a r h
    obtain ⟨kx, vx⟩ := x
    obtain ⟨ky, vy⟩ := y
    obtain ⟨i, p, m, hget, hm, hrest⟩ := tupleHashLoop_cons_ok h
    obtain ⟨j, q, m', hget', hm', hrest'⟩ := tupleHashLoop_cons_ok hrest
    simp only [tupleHashLoop, hget, hm, hget', hm']
    rw [← hrest']
    congr 1
    ring
  | trans _ _ ih1 ih2 => intro a r h; exact ih2 _ _ (ih1 _ _ h)

theorem drop_eq_cons {α : Type} {l : List α} {i : Nat} {x : α} {xs : List α}
    (h : l.drop i = x :: xs) : l.get? i = some x ∧ l.drop (i + 1) = xs ∧ i < l.length := by
  have hlt : i < l.length := by
    by_contra hge
    rw [List.drop_of_length_le (by omega)] at h
    cases h
  have h2 := List.drop_eq_getElem_cons hlt
  rw [h2] at h
  simp only [List.cons.injEq] at h
  refine ⟨?_, h.2, hlt⟩
  rw [List.get?_eq_getElem?, List.getElem?_eq_getElem hlt, h.1]

theorem get?_of_mem_drop {α : Type} {l : List α} {i : Nat} {x : α}
    (h : x ∈ l.drop i) : ∃ k, l.get? (i + k) = some x := by
  obtain ⟨k, hk⟩ := List.mem_iff_get?.mp h
  refine ⟨k, ?_⟩
  rw [List.get?_eq_getElem?] at hk ⊢
  rw [List.getElem?_drop] at hk
  exact hk

/-- The loops of `Tuple.unhash` and `Tuple.hash` undo each other on the
subparts from position `i` on, when no key of a subpart names a member: the
mapping that `unhash` returns holds the entries it started with and one entry
for each subpart, and `hash` of the new entries gives `n` back. -/
theorem tuple_loops (name : String) (subparts : List Part) (props : List (String × Nat))
    (hdef : defineSubparts subparts 0 [] = .ok props)
    (hplain : ∀ p ∈ subparts, p.key ∉ memberNames) :
    ∀ (ps : List Part) (i : Nat), subparts.drop i = ps →
      (∀ p ∈ ps, ∀ n, 0 ≤ n → n < p.cardinality →
        ∃ m, p.unhash n = .ok m ∧ p.hash m "bigint" = .ok (.bigint n)) →
      ∀ (n : Int) (model : List (String × Model)), 0 ≤ n →
        n < (ps.map Part.cardinality).prod →
        (∀ p ∈ ps, ∀ e ∈ model, e.1 ≠ p.key) →
        ∃ result entries, tupleUnhashLoop ps (placeValues ps) n model = .ok (.obj result) ∧
          result.Perm (model ++ entries) ∧
          entries.map Prod.fst = ps.map Part.key ∧
          ∀ a, tupleHashLoop name subparts entries a = .ok (a + n) := by
  intro ps
  induction ps with
  | nil =>
    intro i _ _ n model h0 hn _
    refine ⟨model, [], ?_, by simp, rfl, ?_⟩
    · simp [tupleUnhashLoop]
    · intro a
      simp only [List.map_nil, List.prod_nil] at hn
      have : n = 0 := by omega
      simp [tupleHashLoop, this]
  | cons p ps ih =>
    intro i hdrop hrt n model h0 hn hfresh
    obtain ⟨hget, hdrop', hlt⟩ := drop_eq_cons hdrop
    have hpk : p.key ∉ memberNames := hplain p (List.get?_mem hget)
    have hP0 : 0 ≤ (ps.map Part.cardinality).prod := by
      apply List.prod_nonneg
      intro a ha
      obtain ⟨q, _, rfl⟩ := List.mem_map.mp ha
      exact cardinality_nonneg q
    simp only [List.map_cons, List.prod_cons] at hn
    have hPpos : 0 < (ps.map Part.cardinality).prod := by
      rcases hP0.lt_or_eq with h | h
      · exact h
      · rw [← h] at hn; simp at hn; omega
    have hq0 : 0 ≤ n / (ps.map Part.cardinality).prod := Int.ediv_nonneg h0 hP0
    have hqlt : n / (ps.map Part.cardinality).prod < p.cardinality :=
      Int.ediv_lt_of_lt_mul hPpos hn
    obtain ⟨m, hun, hha⟩ := hrt p (by simp) _ hq0 hqlt
    have hr0 : 0 ≤ n % (ps.map Part.cardinality).prod := Int.emod_nonneg _ (ne_of_gt hPpos)
    have hrlt : n % (ps.map Part.cardinality).prod < (ps.map Part.cardinality).prod :=
      Int.emod_lt_of_pos _ hPpos
    have hset : (setProp model p.key m).Perm (model ++ [(p.key, m)]) :=
      setProp_perm _ _ _ (ne_proto hpk) (fun e he => hfresh p (by simp) e he)
    have hfresh' : ∀ q ∈ ps, ∀ e ∈ setProp model p.key m, e.1 ≠ q.key := by
      intro q hq e he
      rcases List.mem_append.mp (hset.mem_iff.mp he) with h | h
      · exact hfresh q (by simp [hq]) e h
      · simp only [List.mem_singleton] at h
        subst h
        intro hk
        rw [← hdrop'] at hq
        obtain ⟨k, hk'⟩ := get?_of_mem_drop hq
        have := key_injective hdef hget hk' hk (ne_cardinality hpk)
        omega
    obtain ⟨result, entries, hloop, hperm, hlen, hhash⟩ :=
      ih (i + 1) hdrop' (fun q hq => hrt q (by simp [hq])) _ (setProp model p.key m) hr0 hrlt
        hfresh'
    refine ⟨result, (p.key, m) :: entries, ?_, ?_, by simp [hlen], ?_⟩
    · rw [placeValues_cons]
      simp only [tupleUnhashLoop, ne_of_gt hPpos, if_false]
      rw [Int.tdiv_eq_ediv h0 hP0, Int.tmod_eq_emod h0 hP0, hun]
      exact hloop
    · refine hperm.trans ?_
      have := List.Perm.append_right entries hset
      simpa using this
    · intro a
      simp only [tupleHashLoop, getMember_key hdef hget (ne_cardinality hpk), hha]
      rw [hhash, tableGet_placeValues _ _ hlt, hdrop']
      congr 1
      have := Int.ediv_add_emod n (ps.map Part.cardinality).prod
      rw [add_assoc]
      congr 1
      rw [mul_comm]
      exact this

theorem take_succ_sum (subparts : List Part) (i : Nat) (p : Part)
    (hget : subparts.get? i = some p) :
    ((subparts.map Part.cardinality).take (i + 1)).sum =
      ((subparts.map Part.cardinality).take i).sum + p.cardinality := by
  have h : (subparts.map Part.cardinality)[i]? = some p.cardinality := by
    rw [List.get?_eq_getElem?] at hget
    simp [List.getElem?_map, hget]
  rw [List.take_succ, h]
  simp

/-- The loop of `Choice.unhash`, entered at position `i` with `n` not below
the offset of that position, stops at the subpart whose range holds `n` and
returns what lines 192-195 return for it. -/
theorem choice_loop (subparts : List Part) :
    ∀ (ps : List Part) (i : Nat), subparts.drop i = ps → ∀ n : Int,
      ((subparts.map Part.cardinality).take i).sum ≤ n →
      n < (subparts.map Part.cardinality).sum →
      ∃ j p, subparts.get? j = some p ∧ i ≤ j ∧
        tableGet (offsets subparts) j ≤ n ∧
        n < tableGet (offsets subparts) j + p.cardinality ∧
        choiceUnhashLoop ps (offsets subparts) i n =
          (if p.cardinality = 1 then .ok (.str p.key)
           else match p.unhash (n - tableGet (offsets subparts) j) with
             | .error e => .error e
             | .ok value => .ok (.obj [(p.key, value)])) := by
  intro ps
  induction ps with
  | nil =>
    intro i hdrop n hlo hhi
    have hlen : subparts.length ≤ i := by
      by_contra hlt
      have := List.drop_eq_getElem_cons (l := subparts) (n := i) (by omega)
      rw [hdrop] at this
      cases this
    rw [List.take_of_length_le (by simpa using hlen)] at hlo
    omega
  | cons p rest ih =>
    intro i hdrop n hlo hhi
    obtain ⟨hget, hdrop', hlt⟩ := drop_eq_cons hdrop
    have hoff : tableGet (offsets subparts) i = ((subparts.map Part.cardinality).take i).sum :=
      tableGet_offsets subparts i hlt
    have hsucc := take_succ_sum subparts i p hget
    by_cases hcond : rest.length = 0 ∨ n < tableGet (offsets subparts) (i + 1)
    · refine ⟨i, p, hget, le_refl _, by rw [hoff]; exact hlo, ?_, ?_⟩
      · rw [hoff, ← hsucc]
        by_cases hrest : rest.length = 0
        · have hlen : subparts.length ≤ i + 1 := by
            have h1 : (subparts.drop (i + 1)).length = 0 := by rw [hdrop']; exact hrest
            rw [List.length_drop] at h1
            omega
          rw [List.take_of_length_le (by simpa using hlen)]
          exact hhi
        · have hlt' : i + 1 < subparts.length := by
            have h1 : (subparts.drop (i + 1)).length ≠ 0 := by rw [hdrop']; exact hrest
            rw [List.length_drop] at h1
            omega
          rcases hcond with h | h
          · exact absurd h hrest
          · rw [tableGet_offsets subparts (i + 1) hlt'] at h
            exact h
      · simp only [choiceUnhashLoop, hcond, if_true]
    · have hrest : rest.length ≠ 0 := fun h => hcond (Or.inl h)
      have hge : tableGet (offsets subparts) (i + 1) ≤ n := by
        by_contra h
        exact hcond (Or.inr (by omega))
      have hlt' : i + 1 < subparts.length := by
        have h1 : (subparts.drop (i + 1)).length ≠ 0 := by rw [hdrop']; exact hrest
        rw [List.length_drop] at h1
        omega
      rw [tableGet_offsets subparts (i + 1) hlt'] at hge
      obtain ⟨j, q, hq, hij, h1, h2, h3⟩ := ih (i + 1) hdrop' n hge hhi
      refine ⟨j, q, hq, by omega, h1, h2, ?_⟩
      simp only [choiceUnhashLoop, hcond, if_false]
      exact h3

/-- Round trip on integers, for every node that the constructors build and
whose subparts, at every depth, have keys that name no member. -/
theorem roundtrip_bigint : ∀ p : Part, p.constructs = true → p.plainKeys = true →
    ∀ n : Int, 0 ≤ n → n < p.cardinality →
    ∃ m, p.unhash n = .ok m ∧ p.hash m "bigint" = .ok (.bigint n) := by
  apply Part.induct
  · intro key _ _ n h0 hn
    simp only [Part.cardinality] at hn
    have : n = 0 := by omega
    subst this
    exact ⟨.null, by simp [Part.unhash], by simp [Part.hash, bigint_ne_string]⟩
  · intro key subparts ih hc hpl n h0 hn
    obtain ⟨hall, props, hdef⟩ := constructs_tuple hc
    have hplain := plainKeys_tuple hpl
    have hsh : shadows subparts "hash" = false := shadows_plain hplain (by decide)
    have hsu : shadows subparts "unhash" = false := shadows_plain hplain (by decide)
    rw [cardinality_tuple] at hn
    obtain ⟨result, entries, hloop, hperm, hlen, hhash⟩ :=
      tuple_loops key subparts props hdef (fun p hp => (hplain p hp).1) subparts 0 (by simp)
        (fun p hp => ih p hp (hall p hp) (hplain p hp).2) n [] h0 hn (by simp)
    rw [List.nil_append] at hperm
    refine ⟨.obj result, by simpa [Part.unhash, hsu] using hloop, ?_⟩
    have hres := tupleHashLoop_perm key subparts hperm.symm 0 _ (hhash 0)
    simp only [Part.hash, hsh, Bool.false_eq_true, if_false]
    by_cases he : result.length = 0
    · have hs : subparts = [] := by
        have h1 := congrArg List.length hlen
        simp only [List.length_map] at h1
        rw [← hperm.length_eq, he] at h1
        exact List.length_eq_zero.mp h1.symm
      subst hs
      simp only [List.map_nil, List.prod_nil] at hn
      have : n = 0 := by omega
      simp [he, this]
    · rw [if_neg he, hres, cardinality_tuple]
      simp only [zero_add, ge_iff_le, not_le.mpr hn, if_false, bigint_ne_string]
  · intro key subparts ih hc hpl n h0 hn
    obtain ⟨hall, props, hdef⟩ := constructs_choice hc
    have hplain := plainKeys_choice hpl
    have hsh : shadows subparts "hash" = false := shadows_plain hplain (by decide)
    have hsu : shadows subparts "unhash" = false := shadows_plain hplain (by decide)
    have hcard := cardinality_choice key subparts
    rw [hcard] at hn
    obtain ⟨j, p, hget, _, hlo, hhi, hloop⟩ :=
      choice_loop subparts subparts 0 (by simp) n (by simpa using h0) hn
    have hmem : p ∈ subparts := List.get?_mem hget
    have hpk := ne_cardinality (hplain p hmem).1
    by_cases h1 : p.cardinality = 1
    · refine ⟨.str p.key, ?_, ?_⟩
      · simp only [Part.unhash, hsu, Bool.false_eq_true, if_false, hloop, h1, if_true]
      · have hn' : n = tableGet (offsets subparts) j := by omega
        simp only [Part.hash, hsh, Bool.false_eq_true, getMember_key hdef hget hpk, hcard,
          add_zero, ← hn', ge_iff_le, not_le.mpr hn, if_false, bigint_ne_string]
    · obtain ⟨m, hun, hha⟩ := ih p hmem (hall p hmem) (hplain p hmem).2
        (n - tableGet (offsets subparts) j) (by omega) (by omega)
      refine ⟨.obj [(p.key, m)], ?_, ?_⟩
      · simp only [Part.unhash, hsu, Bool.false_eq_true, hloop, h1, if_false, hun]
      · simp only [Part.hash, hsh, Bool.false_eq_true, getMember_key hdef hget hpk, hha, hcard,
          add_sub_cancel, ge_iff_le, not_le.mpr hn, if_false, bigint_ne_string]

/-! ## Binary strings -/

theorem foldl_parse (s : List Char) (a : Nat) :
    s.foldl (fun acc c => 2 * acc + (if c = '1' then 1 else 0)) a =
      a * 2 ^ s.length + parseBinary s := by
  induction s generalizing a with
  | nil => simp [parseBinary]
  | cons c s ih =>
    simp only [parseBinary, List.foldl_cons, List.length_cons]
    rw [ih, ih (2 * 0 + _)]
    ring

theorem parseBinary_cons (c : Char) (s : List Char) :
    parseBinary (c :: s) = (if c = '1' then 1 else 0) * 2 ^ s.length + parseBinary s := by
  rw [parseBinary, List.foldl_cons, foldl_parse]
  simp

theorem parseBinary_append (s t : List Char) :
    parseBinary (s ++ t) = parseBinary s * 2 ^ t.length + parseBinary t := by
  rw [parseBinary, List.foldl_append, foldl_parse]
  rfl

theorem parseBinary_lt (s : List Char) : parseBinary s < 2 ^ s.length := by
  induction s with
  | nil => simp [parseBinary]
  | cons c s ih =>
    rw [parseBinary_cons, List.length_cons, pow_succ]
    split <;> omega

theorem parseBinary_replicate_zero (k : Nat) : parseBinary (List.replicate k '0') = 0 := by
  induction k with
  | zero => simp [parseBinary]
  | succ k ih => rw [List.replicate_succ, parseBinary_cons, ih]; simp

theorem parseBinary_padStart (s : List Char) (k : Nat) :
    parseBinary (padStart s k '0') = parseBinary s := by
  rw [padStart, parseBinary_append, parseBinary_replicate_zero]
  simp

/-- Equal values and equal lengths make two strings of binary digits equal. -/
theorem parseBinary_injective : ∀ (s t : List Char), s.length = t.length →
    (∀ c ∈ s, c = '0' ∨ c = '1') → (∀ c ∈ t, c = '0' ∨ c = '1') →
    parseBinary s = parseBinary t → s = t := by
  intro s
  induction s with
  | nil =>
    intro t hlen _ _ _
    exact (List.length_eq_zero.mp hlen.symm).symm
  | cons c s ih =>
    intro t hlen hs ht hp
    cases t with
    | nil => simp at hlen
    | cons d t =>
      simp only [List.length_cons, Nat.add_right_cancel_iff] at hlen
      rw [parseBinary_cons, parseBinary_cons, hlen] at hp
      have h1 := parseBinary_lt s
      have h2 := parseBinary_lt t
      rw [hlen] at h1
      have hc := hs c (by simp)
      have hd := ht d (by simp)
      have hpos : 0 < 2 ^ t.length := Nat.pow_pos (by decide)
      have hcd : c = d ∧ parseBinary s = parseBinary t := by
        rcases hc with hc | hc <;> rcases hd with hd | hd <;> subst hc <;> subst hd <;>
          simp at hp <;> first | exact ⟨rfl, by omega⟩ | omega
      rw [hcd.1, ih t hlen (fun x hx => hs x (by simp [hx])) (fun x hx => ht x (by simp [hx])) hcd.2]

theorem digitChar_mod_two (n : Nat) :
    (Nat.digitChar (n % 2) = '0' ∨ Nat.digitChar (n % 2) = '1') ∧
      (if Nat.digitChar (n % 2) = '1' then 1 else 0) = n % 2 := by
  rcases Nat.mod_two_eq_zero_or_one n with h | h <;> rw [h] <;> decide

theorem toDigitsCore_spec : ∀ (fuel n : Nat) (ds : List Char), n < fuel →
    (∀ c ∈ ds, c = '0' ∨ c = '1') →
    parseBinary (Nat.toDigitsCore 2 fuel n ds) = n * 2 ^ ds.length + parseBinary ds ∧
      ∀ c ∈ Nat.toDigitsCore 2 fuel n ds, c = '0' ∨ c = '1' := by
  intro fuel
  induction fuel with
  | zero => intro n ds h; omega
  | succ fuel ih =>
    intro n ds hn hds
    obtain ⟨hbit, hval⟩ := digitChar_mod_two n
    have hds' : ∀ c ∈ Nat.digitChar (n % 2) :: ds, c = '0' ∨ c = '1' := by
      intro c hc
      rcases List.mem_cons.mp hc with h | h
      · rw [h]; exact hbit
      · exact hds c h
    simp only [Nat.toDigitsCore]
    split
    · rename_i h0
      refine ⟨?_, hds'⟩
      rw [parseBinary_cons, hval]
      have : n = n % 2 := by omega
      rw [← this]
    · rename_i h0
      obtain ⟨h1, h2⟩ := ih (n / 2) (Nat.digitChar (n % 2) :: ds) (by omega) hds'
      refine ⟨?_, h2⟩
      rw [h1, parseBinary_cons, hval, List.length_cons, pow_succ]
      have h3 : n = 2 * (n / 2) + n % 2 := (Nat.div_add_mod n 2).symm
      generalize n / 2 = q at h3 ⊢
      generalize n % 2 = r at h3 ⊢
      subst h3
      ring

theorem parseBinary_toDigits (n : Nat) : parseBinary (Nat.toDigits 2 n) = n := by
  have := (toDigitsCore_spec (n + 1) n [] (by omega) (by simp)).1
  simpa [Nat.toDigits, parseBinary] using this

theorem toDigits_bits (n : Nat) : ∀ c ∈ Nat.toDigits 2 n, c = '0' ∨ c = '1' :=
  (toDigitsCore_spec (n + 1) n [] (by omega) (by simp)).2

theorem toDigits_length_le (n e : Nat) (h : n < 2 ^ e) (he : 0 < e) :
    (Nat.toDigits 2 n).length ≤ e :=
  Nat.toDigitsCore_length 2 (by decide) (n + 1) n e h he

/-- Writing the value of a string of binary digits in binary, padded to the
length of the string, gives the string back. -/
theorem padStart_toDigits_parseBinary (b : List Char) (hb : ∀ c ∈ b, c = '0' ∨ c = '1')
    (hne : 0 < b.length) : padStart (Nat.toDigits 2 (parseBinary b)) b.length '0' = b := by
  have hlen := toDigits_length_le (parseBinary b) b.length (parseBinary_lt b) hne
  apply parseBinary_injective
  · simp only [padStart, List.length_append, List.length_replicate]; omega
  · intro c hc
    simp only [padStart, List.mem_append] at hc
    rcases hc with h | h
    · exact Or.inl (List.eq_of_mem_replicate h)
    · exact toDigits_bits _ c h
  · exact hb
  · rw [parseBinary_padStart, parseBinary_toDigits]

/-! ## The alphabet -/

theorem indexOf_ge (l : List Char) (c : Char) : -1 ≤ indexOf l c := by
  induction l with
  | nil => simp [indexOf]
  | cons x xs ih =>
    simp only [indexOf]
    split
    · omega
    · split <;> omega

/-- A position found by `indexOf` holds the character. -/
theorem indexOf_found (l : List Char) (c : Char) (h : indexOf l c ≠ -1) :
    0 ≤ indexOf l c ∧ l.get? (indexOf l c).toNat = some c := by
  induction l with
  | nil => simp [indexOf] at h
  | cons x xs ih =>
    simp only [indexOf] at h ⊢
    split
    · rename_i hx; simp [hx]
    · rename_i hx
      rw [if_neg hx] at h
      by_cases h1 : indexOf xs c = -1
      · simp [h1] at h
      · obtain ⟨h0, hget⟩ := ih h1
        rw [if_neg h1]
        refine ⟨by omega, ?_⟩
        have : (indexOf xs c + 1).toNat = (indexOf xs c).toNat + 1 := by omega
        rw [this, List.get?_cons_succ]
        exact hget

theorem indexOf_mem (l : List Char) (c : Char) (h : c ∈ l) : indexOf l c ≠ -1 := by
  induction l with
  | nil => simp at h
  | cons x xs ih =>
    simp only [indexOf]
    split
    · omega
    · rename_i hx
      have hc : c ∈ xs := by
        rcases List.mem_cons.mp h with h | h
        · exact absurd h.symm hx
        · exact h
      have := ih hc
      have := indexOf_ge xs c
      rw [if_neg (ih hc)]
      omega

theorem not_mem_of_indexOf (l : List Char) (c : Char) (h : indexOf l c = -1) : c ∉ l := by
  intro hc
  exact indexOf_mem l c hc h

/-- In a list without repetition, `indexOf` finds the position of an
element. -/
theorem indexOf_get (l : List Char) (hl : l.Nodup) (v : Nat) (c : Char)
    (h : l.get? v = some c) : indexOf l c = v := by
  induction l generalizing v with
  | nil => simp at h
  | cons x xs ih =>
    cases v with
    | zero =>
      simp only [List.get?_cons_zero, Option.some.injEq] at h
      simp [indexOf, h]
    | succ v =>
      simp only [List.get?_cons_succ] at h
      have hx : x ≠ c := by
        intro hxc
        subst hxc
        exact (List.nodup_cons.mp hl).1 (List.get?_mem h)
      have := ih (List.nodup_cons.mp hl).2 v h
      simp only [indexOf, hx, if_false, this]
      rw [if_neg (by omega)]
      simp

theorem radix_length : radix.toList.length = 64 := by decide

theorem radix_nodup : radix.toList.Nodup := by decide

theorem indexOf_radix_lt (c : Char) : indexOf radix.toList c < 64 := by
  by_cases h : indexOf radix.toList c = -1
  · omega
  · obtain ⟨h0, hget⟩ := indexOf_found _ _ h
    have := List.get?_eq_some.mp hget
    obtain ⟨hlt, _⟩ := this
    rw [radix_length] at hlt
    omega

theorem radixAt_indexOf (c : Char) (h : c ∈ radix.toList) :
    radixAt (indexOf radix.toList c).toNat = [c] := by
  have := (indexOf_found _ _ (indexOf_mem _ _ h)).2
  simp only [radixAt, this]

theorem radixAt_lt (v : Nat) (hv : v < 64) :
    ∃ c, radixAt v = [c] ∧ c ∈ radix.toList ∧ indexOf radix.toList c = v := by
  have hlt : v < radix.toList.length := by rw [radix_length]; exact hv
  have hget : radix.toList.get? v = some (radix.toList.get ⟨v, hlt⟩) := List.get?_eq_get hlt
  refine ⟨radix.toList.get ⟨v, hlt⟩, ?_, List.get?_mem hget, indexOf_get _ radix_nodup v _ hget⟩
  simp only [radixAt, hget]

/-! ## Length bands -/

theorem charmLengthOffset_zero : charmLengthOffset 0 = 0 := by
  simp [charmLengthOffset]

theorem charmLengthOffset_succ (c : Nat) :
    charmLengthOffset (c + 1) = charmLengthOffset c + 2 ^ (c * 6) := by
  simp [charmLengthOffset, List.range_succ, List.foldl_append]

theorem pow_succ_six (c : Nat) : (2 : Int) ^ ((c + 1) * 6) = 2 ^ (c * 6) * 64 := by
  rw [Nat.add_mul, pow_add]; norm_num

theorem charmLengthOffset_closed (c : Nat) : 63 * charmLengthOffset c + 1 = 2 ^ (c * 6) := by
  induction c with
  | zero => simp [charmLengthOffset_zero]
  | succ c ih => rw [charmLengthOffset_succ, pow_succ_six]; linarith

theorem charmLengthOffset_nonneg (c : Nat) : 0 ≤ charmLengthOffset c := by
  have h := charmLengthOffset_closed c
  have : (0 : Int) < 2 ^ (c * 6) := by positivity
  omega

theorem charmLengthOffset_mono {c d : Nat} (h : c ≤ d) :
    charmLengthOffset c ≤ charmLengthOffset d := by
  induction d with
  | zero =>
    have : c = 0 := by omega
    rw [this]
  | succ d ih =>
    rcases Nat.lt_or_ge c (d + 1) with h1 | h1
    · have := ih (by omega)
      rw [charmLengthOffset_succ]
      have : (0 : Int) < 2 ^ (d * 6) := by positivity
      omega
    · have : c = d + 1 := by omega
      rw [this]

/-- Every non-negative integer lies in one length band only. -/
theorem band_unique {c d : Nat} {r q : Int} (hr : 0 ≤ r) (hr' : r < 2 ^ (c * 6))
    (hq : 0 ≤ q) (hq' : q < 2 ^ (d * 6))
    (h : r + charmLengthOffset c = q + charmLengthOffset d) : c = d ∧ r = q := by
  have key : ∀ {c d : Nat} {r q : Int}, 0 ≤ q → r < 2 ^ (c * 6) →
      r + charmLengthOffset c = q + charmLengthOffset d → ¬ c < d := by
    intro c d r q hq hr' h hlt
    have h1 := charmLengthOffset_mono (show c + 1 ≤ d from hlt)
    rw [charmLengthOffset_succ] at h1
    omega
  have h1 := key hq hr' h
  have h2 := key hr hq' h.symm
  have hcd : c = d := by omega
  subst hcd
  exact ⟨rfl, by omega⟩

/-- The `while` loop of `encode` has left the loop by its own condition
before the fuel of `encode` runs out. -/
theorem encodeLoop_exit : ∀ (fuel : Nat) (r : Int) (c : Nat), r.toNat ≤ fuel →
    ¬ ((encodeLoop fuel r c).1 > 0 ∧ (encodeLoop fuel r c).1 ≥ 2 ^ ((encodeLoop fuel r c).2 * 6)) := by
  intro fuel
  induction fuel with
  | zero =>
    intro r c h
    simp only [encodeLoop]
    omega
  | succ fuel ih =>
    intro r c h
    simp only [encodeLoop]
    by_cases h1 : r > 0
    · rw [if_pos h1]
      by_cases h2 : r ≥ 2 ^ (c * 6)
      · rw [if_pos h2]
        apply ih
        have : (0 : Int) < 2 ^ (c * 6) := by positivity
        omega
      · rw [if_neg h2]
        exact fun h => h2 h.2
    · rw [if_neg h1]
      exact fun h => h1 h.1

/-- What the `while` loop of `encode` computes: the band of the input and its
place in the band. -/
theorem encodeLoop_spec : ∀ (fuel : Nat) (r : Int) (c : Nat), 0 ≤ r → r.toNat ≤ fuel →
    0 ≤ (encodeLoop fuel r c).1 ∧ (encodeLoop fuel r c).1 < 2 ^ ((encodeLoop fuel r c).2 * 6) ∧
      (encodeLoop fuel r c).1 + charmLengthOffset (encodeLoop fuel r c).2 =
        r + charmLengthOffset c := by
  intro fuel
  induction fuel with
  | zero =>
    intro r c h0 h
    have : r = 0 := by omega
    subst this
    simp only [encodeLoop]
    exact ⟨le_refl _, by positivity, trivial⟩
  | succ fuel ih =>
    intro r c h0 h
    simp only [encodeLoop]
    by_cases h1 : r > 0
    · rw [if_pos h1]
      by_cases h2 : r ≥ 2 ^ (c * 6)
      · rw [if_pos h2]
        have hp : (0 : Int) < 2 ^ (c * 6) := by positivity
        obtain ⟨a1, a2, a3⟩ := ih (r - 2 ^ (c * 6)) (c + 1) (by omega) (by omega)
        refine ⟨a1, a2, ?_⟩
        rw [a3, charmLengthOffset_succ]
        ring
      · rw [if_neg h2]
        exact ⟨h0, not_le.mp h2, rfl⟩
    · rw [if_neg h1]
      have : r = 0 := by omega
      subst this
      exact ⟨le_refl _, by positivity, rfl⟩

/-! ## Symbols and slices -/

theorem encodeSymbols_zero (s : List Char) : encodeSymbols s 0 = [] := by
  simp [encodeSymbols]

/-- The first round of the symbol loop takes the first six binary digits. -/
theorem encodeSymbols_succ (chunk rest : List Char) (c : Nat) (h : chunk.length = 6) :
    encodeSymbols (chunk ++ rest) (c + 1) =
      radixAt (parseBinary chunk) ++ encodeSymbols rest c := by
  simp only [encodeSymbols, List.range_succ_eq_map, List.flatMap_cons, List.flatMap_map]
  congr 1
  · simp [← h]
  · congr 1
    funext k
    have : (k + 1) * 6 = chunk.length + k * 6 := by omega
    simp only [Function.comp, Nat.succ_eq_add_one, this, List.drop_append]

theorem six_bits (v : Int) (h0 : 0 ≤ v) (hv : v < 64) :
    (padStart (Nat.toDigits 2 v.toNat) 6 '0').length = 6 ∧
      (∀ c ∈ padStart (Nat.toDigits 2 v.toNat) 6 '0', c = '0' ∨ c = '1') ∧
      parseBinary (padStart (Nat.toDigits 2 v.toNat) 6 '0') = v.toNat := by
  have hlen := toDigits_length_le v.toNat 6 (by norm_num; omega) (by decide)
  refine ⟨?_, ?_, ?_⟩
  · simp only [padStart, List.length_append, List.length_replicate]; omega
  · intro c hc
    simp only [padStart, List.mem_append] at hc
    rcases hc with h | h
    · exact Or.inl (List.eq_of_mem_replicate h)
    · exact toDigits_bits _ c h
  · rw [parseBinary_padStart, parseBinary_toDigits]

theorem parseBinary_offset_step (offs : List Char) :
    63 * (parseBinary (offs ++ "000001".toList) : Int) + 1 =
      (63 * (parseBinary offs : Int) + 1) * 64 := by
  rw [parseBinary_append]
  have : parseBinary "000001".toList = 1 := by decide
  rw [this]
  have : "000001".toList.length = 6 := by decide
  rw [this]
  push_cast
  ring

/-- Decoding the symbols written for a string of `6 * c` binary digits reads
the digits back. -/
theorem decodeLoop_encodeSymbols : ∀ (c : Nat) (b rounded offs : List Char),
    b.length = 6 * c → (∀ x ∈ b, x = '0' ∨ x = '1') →
    ∃ offs', decodeLoop (encodeSymbols b c) rounded offs = .ok (rounded ++ b, offs') ∧
      63 * (parseBinary offs' : Int) + 1 = (63 * (parseBinary offs : Int) + 1) * 2 ^ (c * 6) := by
  intro c
  induction c with
  | zero =>
    intro b rounded offs hlen _
    have : b = [] := List.length_eq_zero.mp (by omega)
    subst this
    exact ⟨offs, by simp [encodeSymbols_zero, decodeLoop], by simp⟩
  | succ c ih =>
    intro b rounded offs hlen hbits
    have hsplit : b = b.take 6 ++ b.drop 6 := (List.take_append_drop 6 b).symm
    have htake : (b.take 6).length = 6 := by rw [List.length_take]; omega
    have hdrop : (b.drop 6).length = 6 * c := by rw [List.length_drop]; omega
    have hbt : ∀ x ∈ b.take 6, x = '0' ∨ x = '1' := fun x hx => hbits x (List.mem_of_mem_take hx)
    have hbd : ∀ x ∈ b.drop 6, x = '0' ∨ x = '1' := fun x hx => hbits x (List.mem_of_mem_drop hx)
    have hv : parseBinary (b.take 6) < 64 := by
      have := parseBinary_lt (b.take 6)
      rw [htake] at this
      exact this
    obtain ⟨ch, hch, _, hidx⟩ := radixAt_lt _ hv
    obtain ⟨offs', hloop, hoff⟩ :=
      ih (b.drop 6) (rounded ++ b.take 6) (offs ++ "000001".toList) hdrop hbd
    refine ⟨offs', ?_, ?_⟩
    · rw [hsplit, encodeSymbols_succ _ _ _ htake, hch, ← hsplit]
      simp only [List.singleton_append, decodeLoop, hidx]
      rw [if_neg (by omega)]
      have hg := padStart_toDigits_parseBinary (b.take 6) hbt (by omega)
      rw [htake] at hg
      simp only [Int.toNat_ofNat, hg]
      show decodeLoop (encodeSymbols (List.drop 6 b) c) _ _ = _
      rw [hloop, List.append_assoc, List.take_append_drop]
    · rw [hoff, parseBinary_offset_step, pow_succ_six]
      ring

/-- Decoding a string of alphabet symbols reads six binary digits for each
symbol, and the symbol loop of `encode` writes the string back from them. -/
theorem decodeLoop_alphabet : ∀ (s rounded offs : List Char), (∀ x ∈ s, x ∈ radix.toList) →
    ∃ b offs', decodeLoop s rounded offs = .ok (rounded ++ b, offs') ∧
      b.length = 6 * s.length ∧ (∀ x ∈ b, x = '0' ∨ x = '1') ∧
      63 * (parseBinary offs' : Int) + 1 =
        (63 * (parseBinary offs : Int) + 1) * 2 ^ (s.length * 6) ∧
      encodeSymbols b s.length = s := by
  intro s
  induction s with
  | nil =>
    intro rounded offs _
    exact ⟨[], offs, by simp [decodeLoop], rfl, by simp, by simp, by simp [encodeSymbols_zero]⟩
  | cons ch s ih =>
    intro rounded offs hs
    have hmem : ch ∈ radix.toList := hs ch (by simp)
    have hne := indexOf_mem _ _ hmem
    have h0 := (indexOf_found _ _ hne).1
    have hlt := indexOf_radix_lt ch
    obtain ⟨hlen6, hbits6, hval6⟩ := six_bits _ h0 hlt
    obtain ⟨b, offs', hloop, hlen, hbits, hoff, henc⟩ :=
      ih (rounded ++ padStart (Nat.toDigits 2 (indexOf radix.toList ch).toNat) 6 '0')
        (offs ++ "000001".toList) (fun x hx => hs x (by simp [hx]))
    refine ⟨padStart (Nat.toDigits 2 (indexOf radix.toList ch).toNat) 6 '0' ++ b, offs',
      ?_, ?_, ?_, ?_, ?_⟩
    · simp only [decodeLoop]
      rw [if_neg (by omega), hloop, List.append_assoc]
    · simp only [List.length_append, hlen6, hlen, List.length_cons]; omega
    · intro x hx
      rcases List.mem_append.mp hx with h | h
      · exact hbits6 x h
      · exact hbits x h
    · rw [hoff, parseBinary_offset_step, List.length_cons, pow_succ_six]
      ring
    · rw [List.length_cons, encodeSymbols_succ _ _ _ hlen6, hval6, radixAt_indexOf _ hmem, henc]
      rfl

/-! ## The two directions of the codec -/

theorem parseBinary_offset_eq (offs : List Char) (c : Nat)
    (h : 63 * (parseBinary offs : Int) + 1 = (63 * (parseBinary ['0'] : Int) + 1) * 2 ^ (c * 6)) :
    (parseBinary offs : Int) = charmLengthOffset c := by
  have h1 := charmLengthOffset_closed c
  have h2 : parseBinary ['0'] = 0 := by decide
  rw [h2] at h
  simp only [Nat.cast_zero, mul_zero, zero_add, one_mul] at h
  omega

/-- Decoding undoes encoding on the non-negative integers. -/
theorem decode_encode (n : Int) (h0 : 0 ≤ n) : decode (encode n) = .ok n := by
  obtain ⟨hr0, hrlt, hsum⟩ := encodeLoop_spec n.toNat n 0 h0 (le_refl _)
  rw [charmLengthOffset_zero, add_zero] at hsum
  simp only [encode, decode]
  generalize (encodeLoop n.toNat n 0).2 = c at hr0 hrlt hsum ⊢
  generalize (encodeLoop n.toNat n 0).1 = r at hr0 hrlt hsum
  have hr : n - charmLengthOffset c = r := by omega
  rw [hr]
  show (match decodeLoop (encodeSymbols (padStart (toStringRadix2 r) (c * 6) '0') c) ['0'] ['0'] with
    | Except.error e => Except.error e
    | Except.ok (rounded, lengthOffset) =>
      Except.ok ((parseBinary rounded : Int) + (parseBinary lengthOffset : Int))) = Except.ok n
  rcases Nat.eq_zero_or_pos c with hc | hc
  · subst hc
    rw [encodeSymbols_zero]
    simp only [decodeLoop]
    have h2 : parseBinary ['0'] = 0 := by decide
    rw [h2]
    simp only [Nat.zero_mul, pow_zero] at hrlt
    rw [charmLengthOffset_zero] at hsum
    simp only [Nat.cast_zero, add_zero, Except.ok.injEq]
    omega
  · have hstr : toStringRadix2 r = Nat.toDigits 2 r.toNat := by
      simp only [toStringRadix2, not_lt.mpr hr0, if_false]
      congr 1
      omega
    have hR : r.toNat < 2 ^ (c * 6) := by
      have : ((r.toNat : Nat) : Int) < ((2 ^ (c * 6) : Nat) : Int) := by
        rw [Int.toNat_of_nonneg hr0]; push_cast; exact hrlt
      exact_mod_cast this
    have hlen := toDigits_length_le r.toNat (c * 6) hR (by omega)
    have hblen : (padStart (Nat.toDigits 2 r.toNat) (c * 6) '0').length = 6 * c := by
      simp only [padStart, List.length_append, List.length_replicate]; omega
    have hbits : ∀ x ∈ padStart (Nat.toDigits 2 r.toNat) (c * 6) '0', x = '0' ∨ x = '1' := by
      intro x hx
      simp only [padStart, List.mem_append] at hx
      rcases hx with h | h
      · exact Or.inl (List.eq_of_mem_replicate h)
      · exact toDigits_bits _ x h
    obtain ⟨offs', hloop, hoff⟩ := decodeLoop_encodeSymbols c _ ['0'] ['0'] hblen hbits
    rw [hstr, hloop]
    simp only [Except.ok.injEq]
    rw [parseBinary_offset_eq offs' c hoff, List.singleton_append, parseBinary_cons,
      parseBinary_padStart, parseBinary_toDigits]
    simp only [Char.reduceEq, if_false, zero_mul, zero_add]
    rw [Int.toNat_of_nonneg hr0]
    exact hsum

/-- Encoding undoes decoding on the strings over the alphabet. -/
theorem encode_decode (s : String) (hs : ∀ x ∈ s.toList, x ∈ radix.toList) :
    ∃ n, decode s = .ok n ∧ 0 ≤ n ∧ encode n = s := by
  obtain ⟨b, offs', hloop, hlen, hbits, hoff, henc⟩ := decodeLoop_alphabet s.toList ['0'] ['0'] hs
  have hoff' := parseBinary_offset_eq offs' s.toList.length hoff
  have hval : parseBinary (['0'] ++ b) = parseBinary b := by
    rw [List.singleton_append, parseBinary_cons]; simp
  refine ⟨(parseBinary b : Int) + charmLengthOffset s.toList.length, ?_, ?_, ?_⟩
  · simp only [decode, hloop, hval, hoff']
  · have := charmLengthOffset_nonneg s.toList.length
    omega
  · generalize hn : (parseBinary b : Int) + charmLengthOffset s.toList.length = n
    have h0 : 0 ≤ n := by
      have := charmLengthOffset_nonneg s.toList.length
      omega
    obtain ⟨hr0, hrlt, hsum⟩ := encodeLoop_spec n.toNat n 0 h0 (le_refl _)
    rw [charmLengthOffset_zero, add_zero] at hsum
    replace hsum := hsum.trans hn.symm
    have hblt : (parseBinary b : Int) < 2 ^ (s.toList.length * 6) := by
      have := parseBinary_lt b
      rw [hlen, Nat.mul_comm] at this
      exact_mod_cast this
    obtain ⟨hc, hr⟩ := band_unique hr0 hrlt (by omega) hblt hsum
    simp only [encode]
    rw [hc]
    have hr' : n - charmLengthOffset s.toList.length = (parseBinary b : Int) := by omega
    rw [hr']
    rcases Nat.eq_zero_or_pos s.toList.length with hz | hpos
    · rw [hz, encodeSymbols_zero]
      have : s.toList = [] := List.length_eq_zero.mp hz
      show String.mk [] = s
      rw [← this]
      rfl
    · have hstr : toStringRadix2 (parseBinary b : Int) = Nat.toDigits 2 (parseBinary b) := by
        simp [toStringRadix2]
      have hg := padStart_toDigits_parseBinary b hbits (by omega)
      rw [hlen, Nat.mul_comm] at hg
      rw [hstr, hg, henc]
      rfl

/-! ## Products, partial sums and the failure of `decode` -/

theorem prod_ge_one (l : List Int) (h : ∀ x ∈ l, 1 ≤ x) : 1 ≤ l.prod := by
  induction l with
  | nil => simp
  | cons x xs ih =>
    rw [List.prod_cons]
    have h1 := h x (by simp)
    have h2 := ih (fun y hy => h y (by simp [hy]))
    nlinarith

theorem take_sum_mono (l : List Int) (hl : ∀ x ∈ l, 0 ≤ x) :
    ∀ (i j : Nat), i ≤ j → (l.take i).sum ≤ (l.take j).sum := by
  induction l with
  | nil => intro i j _; simp
  | cons x xs ih =>
    intro i j hij
    have hx := hl x (by simp)
    have hxs : ∀ y ∈ xs, 0 ≤ y := fun y hy => hl y (by simp [hy])
    cases i with
    | zero =>
      simp only [List.take_zero, List.sum_nil]
      apply List.sum_nonneg
      intro y hy
      exact hl y (List.mem_of_mem_take hy)
    | succ i =>
      cases j with
      | zero => omega
      | succ j =>
        simp only [List.take_succ_cons, List.sum_cons]
        have := ih hxs i j (by omega)
        omega

/-- An alphabet string never makes `decode` throw, and a string with a
character outside the alphabet makes it throw that character. -/
theorem decodeLoop_outside : ∀ (s rounded offs : List Char), (∃ x ∈ s, x ∉ radix.toList) →
    ∃ ch, ch ∈ s ∧ ch ∉ radix.toList ∧
      decodeLoop s rounded offs = .error (.thrown (String.mk [ch])) := by
  intro s
  induction s with
  | nil => intro _ _ h; obtain ⟨x, hx, _⟩ := h; cases hx
  | cons c s ih =>
    intro rounded offs h
    by_cases hc : indexOf radix.toList c = -1
    · refine ⟨c, by simp, not_mem_of_indexOf _ _ hc, ?_⟩
      simp only [decodeLoop]
      rw [if_pos (Or.inl hc)]
    · have hlt := indexOf_radix_lt c
      have hin : c ∈ radix.toList := List.get?_mem (indexOf_found _ _ hc).2
      have h' : ∃ x ∈ s, x ∉ radix.toList := by
        obtain ⟨x, hx, hnot⟩ := h
        rcases List.mem_cons.mp hx with h1 | h1
        · subst h1; exact absurd hin hnot
        · exact ⟨x, h1, hnot⟩
      obtain ⟨ch, hch, hnot, hloop⟩ := ih _ _ h'
      refine ⟨ch, by simp [hch], hnot, ?_⟩
      simp only [decodeLoop]
      rw [if_neg (by omega), hloop]

/-- The only way `decode` fails: the input holds a character outside the
alphabet, and what is thrown is such a character, as a plain string. -/
theorem decode_fails_iff (s : String) :
    ((∃ e, decode s = .error e) ↔ ∃ x ∈ s.toList, x ∉ radix.toList) ∧
      ∀ e, decode s = .error e →
        ∃ ch, ch ∈ s.toList ∧ ch ∉ radix.toList ∧ e = .thrown (String.mk [ch]) := by
  have hbad : (∃ x ∈ s.toList, x ∉ radix.toList) →
      ∃ ch, ch ∈ s.toList ∧ ch ∉ radix.toList ∧ decode s = .error (.thrown (String.mk [ch])) := by
    intro h
    obtain ⟨ch, hch, hnot, hloop⟩ := decodeLoop_outside s.toList ['0'] ['0'] h
    exact ⟨ch, hch, hnot, by simp only [decode, hloop]⟩
  have hgood : (¬ ∃ x ∈ s.toList, x ∉ radix.toList) → ∃ n, decode s = .ok n := by
    intro h
    obtain ⟨n, hn, _⟩ := encode_decode s (fun x hx => by
      by_contra hnot
      exact h ⟨x, hx, hnot⟩)
    exact ⟨n, hn⟩
  refine ⟨⟨?_, ?_⟩, ?_⟩
  · rintro ⟨e, he⟩
    by_contra h
    obtain ⟨n, hn⟩ := hgood h
    rw [hn] at he
    cases he
  · intro h
    obtain ⟨ch, _, _, hd⟩ := hbad h
    exact ⟨_, hd⟩
  · intro e he
    by_cases h : ∃ x ∈ s.toList, x ∉ radix.toList
    · obtain ⟨ch, hch, hnot, hd⟩ := hbad h
      rw [hd] at he
      simp only [Except.error.injEq] at he
      exact ⟨ch, hch, hnot, he.symm⟩
    · obtain ⟨n, hn⟩ := hgood h
      rw [hn] at he
      cases he

/-! ## Ranges of a `Choice` and trees without an empty `Choice` -/

/-- The ranges of two different subparts of a `Choice` do not both hold `n`. -/
theorem choice_range_unique (subparts : List Part) (n : Int) {i j : Nat} {p q : Part}
    (hp : subparts.get? i = some p) (hq : subparts.get? j = some q)
    (hplo : tableGet (offsets subparts) i ≤ n)
    (hphi : n < tableGet (offsets subparts) i + p.cardinality)
    (hqlo : tableGet (offsets subparts) j ≤ n)
    (hqhi : n < tableGet (offsets subparts) j + q.cardinality) : i = j := by
  have hnonneg : ∀ x ∈ subparts.map Part.cardinality, 0 ≤ x := by
    intro x hx
    obtain ⟨r, _, rfl⟩ := List.mem_map.mp hx
    exact cardinality_nonneg r
  obtain ⟨hi, _⟩ := List.get?_eq_some.mp hp
  obtain ⟨hj, _⟩ := List.get?_eq_some.mp hq
  rw [tableGet_offsets subparts i hi] at hplo hphi
  rw [tableGet_offsets subparts j hj] at hqlo hqhi
  rw [← take_succ_sum subparts i p hp] at hphi
  rw [← take_succ_sum subparts j q hq] at hqhi
  by_contra hne
  rcases Nat.lt_or_gt_of_ne hne with h | h
  · have := take_sum_mono _ hnonneg (i + 1) j (by omega)
    omega
  · have := take_sum_mono _ hnonneg (j + 1) i (by omega)
    omega

theorem allChoicesNonempty_iff (ps : List Part) :
    allChoicesNonempty ps = true ↔ ∀ p ∈ ps, p.everyChoiceNonempty = true := by
  induction ps with
  | nil => simp [allChoicesNonempty]
  | cons p ps ih => simp [allChoicesNonempty, ih]

/-- A tree in which every `Choice` has a subpart has cardinality at least 1. -/
theorem cardinality_pos : ∀ p : Part, p.everyChoiceNonempty = true → 1 ≤ p.cardinality := by
  apply Part.induct
  · intro key _
    simp [Part.cardinality]
  · intro key subparts ih h
    simp only [Part.everyChoiceNonempty, allChoicesNonempty_iff] at h
    rw [cardinality_tuple]
    apply prod_ge_one
    intro x hx
    obtain ⟨q, hq, rfl⟩ := List.mem_map.mp hx
    exact ih q hq (h q hq)
  · intro key subparts ih h
    simp only [Part.everyChoiceNonempty, Bool.and_eq_true, allChoicesNonempty_iff] at h
    rw [cardinality_choice]
    cases subparts with
    | nil => simp at h
    | cons q qs =>
      simp only [List.map_cons, List.sum_cons]
      have h1 := ih q (by simp) (h.2 q (by simp))
      have h2 : 0 ≤ (qs.map Part.cardinality).sum := by
        apply List.sum_nonneg
        intro x hx
        obtain ⟨r, _, rfl⟩ := List.mem_map.mp hx
        exact cardinality_nonneg r
      omega

/-! ## Induction over models; the tables are not negative -/

/-- Induction over models: a property that holds for `null`, `undefined` and
strings, and for a mapping whenever it holds for all its values, holds for
every model. -/
theorem Model.induct_values {P : Model → Prop} (hnull : P .null) (hundef : P .undefined)
    (hstr : ∀ s, P (.str s))
    (hobj : ∀ entries : List (String × Model), (∀ e ∈ entries, P e.2) → P (.obj entries)) :
    ∀ m, P m :=
  fun m => Model.rec (motive_1 := P) (motive_2 := fun l => ∀ e ∈ l, P e.2)
    (motive_3 := fun e => P e.2) hnull hundef hstr (fun entries ih => hobj entries ih)
    (fun e he => by cases he)
    (fun head tail ih1 ih2 e he => by
      rcases List.mem_cons.mp he with h | h
      · exact h ▸ ih1
      · exact ih2 e h)
    (fun _ _ ih => ih) m

theorem tableGet_placeValues_nonneg (subparts : List Part) (i : Nat) :
    0 ≤ tableGet (placeValues subparts) i := by
  rcases Nat.lt_or_ge i subparts.length with h | h
  · rw [tableGet_placeValues subparts i h]
    apply List.prod_nonneg
    intro x hx
    obtain ⟨q, _, rfl⟩ := List.mem_map.mp hx
    exact cardinality_nonneg q
  · rw [tableGet, List.getD_eq_default _ _ (by rw [placeValues_length]; exact h)]

theorem tableGet_offsets_nonneg (subparts : List Part) (i : Nat) :
    0 ≤ tableGet (offsets subparts) i := by
  rcases Nat.lt_or_ge i subparts.length with h | h
  · rw [tableGet_offsets subparts i h]
    apply List.sum_nonneg
    intro x hx
    obtain ⟨q, _, rfl⟩ := List.mem_map.mp (List.mem_of_mem_take hx)
    exact cardinality_nonneg q
  · rw [tableGet, List.getD_eq_default _ _ (by rw [offsets_length]; exact h)]

/-- The range of a subpart of a `Choice` ends within the cardinality. -/
theorem offset_add_le (subparts : List Part) {i : Nat} {child : Part}
    (hget : subparts.get? i = some child) :
    tableGet (offsets subparts) i + child.cardinality ≤ (subparts.map Part.cardinality).sum := by
  have hnonneg : ∀ x ∈ subparts.map Part.cardinality, 0 ≤ x := by
    intro x hx
    obtain ⟨r, _, rfl⟩ := List.mem_map.mp hx
    exact cardinality_nonneg r
  obtain ⟨hi, _⟩ := List.get?_eq_some.mp hget
  rw [tableGet_offsets subparts i hi, ← take_succ_sum subparts i child hget]
  have := take_sum_mono _ hnonneg (i + 1) subparts.length (by omega)
  have hfull : List.take subparts.length (subparts.map Part.cardinality) =
      subparts.map Part.cardinality := List.take_of_length_le (by simp)
  rw [hfull] at this
  exact this

/-! ## The symbols of `encode` -/

theorem two_pow_six (c : Nat) : (2 : Int) ^ (c * 6) = 64 ^ c := by
  rw [pow_mul']; norm_num

theorem two_pow_six_nat (c : Nat) : (2 : Nat) ^ (6 * c) = 64 ^ c := by
  rw [pow_mul]; norm_num

/-- The offset of a length band is the sum of the powers of 64 below it. -/
theorem charmLengthOffset_eq_sum (c : Nat) :
    charmLengthOffset c = (Finset.range c).sum (fun i => (64 : Int) ^ i) := by
  induction c with
  | zero => simp [charmLengthOffset_zero]
  | succ c ih => rw [charmLengthOffset_succ, Finset.sum_range_succ, ih, two_pow_six]

theorem encodeSymbols_length : ∀ (c : Nat) (b : List Char), b.length = 6 * c →
    (encodeSymbols b c).length = c ∧ ∀ x ∈ encodeSymbols b c, x ∈ radix.toList := by
  intro c
  induction c with
  | zero => intro b _; simp [encodeSymbols_zero]
  | succ c ih =>
    intro b hlen
    have hsplit : b = b.take 6 ++ b.drop 6 := (List.take_append_drop 6 b).symm
    have htake : (b.take 6).length = 6 := by rw [List.length_take]; omega
    have hdrop : (b.drop 6).length = 6 * c := by rw [List.length_drop]; omega
    have hv : parseBinary (b.take 6) < 64 := by
      have := parseBinary_lt (b.take 6)
      rw [htake] at this
      exact this
    obtain ⟨ch, hch, hmem, _⟩ := radixAt_lt _ hv
    obtain ⟨h1, h2⟩ := ih (b.drop 6) hdrop
    rw [hsplit, encodeSymbols_succ _ _ _ htake, hch]
    refine ⟨by simp [h1], ?_⟩
    intro x hx
    rcases List.mem_append.mp hx with h | h
    · simp only [List.mem_singleton] at h
      rw [h]; exact hmem
    · exact h2 x h

/-- The band of a non-negative integer and the binary digits from which
`encode` writes its symbols. -/
theorem encode_bits (n : Int) (h0 : 0 ≤ n) :
    ∃ (c : Nat) (b : List Char), charmLengthOffset c ≤ n ∧ n < charmLengthOffset (c + 1) ∧
      b.length = 6 * c ∧ (∀ x ∈ b, x = '0' ∨ x = '1') ∧
      (parseBinary b : Int) = n - charmLengthOffset c ∧
      (encode n).toList = encodeSymbols b c := by
  obtain ⟨hr0, hrlt, hsum⟩ := encodeLoop_spec n.toNat n 0 h0 (le_refl _)
  rw [charmLengthOffset_zero, add_zero] at hsum
  have henc : (encode n).toList = encodeSymbols
      (padStart (toStringRadix2 (n - charmLengthOffset (encodeLoop n.toNat n 0).2))
        ((encodeLoop n.toNat n 0).2 * 6) '0') (encodeLoop n.toNat n 0).2 := rfl
  rw [henc]
  generalize (encodeLoop n.toNat n 0).2 = c at hr0 hrlt hsum ⊢
  generalize (encodeLoop n.toNat n 0).1 = r at hr0 hrlt hsum
  have hr : n - charmLengthOffset c = r := by omega
  rw [hr]
  rcases Nat.eq_zero_or_pos c with hc | hc
  · subst hc
    refine ⟨0, [], by omega, ?_, rfl, by simp, ?_, by simp [encodeSymbols_zero]⟩
    · rw [charmLengthOffset_succ]; omega
    · simp only [Nat.zero_mul, pow_zero] at hrlt
      simp only [parseBinary, List.foldl_nil, Nat.cast_zero]
      omega
  · have hstr : toStringRadix2 r = Nat.toDigits 2 r.toNat := by
      simp only [toStringRadix2, not_lt.mpr hr0, if_false]
      congr 1
      omega
    have hR : r.toNat < 2 ^ (c * 6) := by
      have : ((r.toNat : Nat) : Int) < ((2 ^ (c * 6) : Nat) : Int) := by
        rw [Int.toNat_of_nonneg hr0]; push_cast; exact hrlt
      exact_mod_cast this
    have hlen := toDigits_length_le r.toNat (c * 6) hR (by omega)
    refine ⟨c, padStart (Nat.toDigits 2 r.toNat) (c * 6) '0', by omega, ?_, ?_, ?_, ?_, by
      rw [hstr]⟩
    · rw [charmLengthOffset_succ]; omega
    · simp only [padStart, List.length_append, List.length_replicate]; omega
    · intro x hx
      simp only [padStart, List.mem_append] at hx
      rcases hx with h | h
      · exact Or.inl (List.eq_of_mem_replicate h)
      · exact toDigits_bits _ x h
    · rw [parseBinary_padStart, parseBinary_toDigits, Int.toNat_of_nonneg hr0]
      omega

/-- The value of one slice of six binary digits is one base-64 digit of the
value of the whole string. -/
theorem parseBinary_slice (b : List Char) (L k : Nat) (hlen : b.length = 6 * L) (hk : k < L) :
    parseBinary ((b.drop (k * 6)).take 6) = (parseBinary b / 64 ^ (L - 1 - k)) % 64 := by
  have h1 : b = b.take (k * 6) ++ ((b.drop (k * 6)).take 6 ++ (b.drop (k * 6)).drop 6) := by
    rw [List.take_append_drop, List.take_append_drop]
  have hrest : ((b.drop (k * 6)).drop 6).length = 6 * (L - 1 - k) := by
    simp only [List.length_drop]; omega
  have hchunk : ((b.drop (k * 6)).take 6).length = 6 := by
    simp only [List.length_take, List.length_drop]; omega
  have hval : parseBinary b =
      (parseBinary (b.take (k * 6)) * 64 + parseBinary ((b.drop (k * 6)).take 6)) *
        64 ^ (L - 1 - k) + parseBinary ((b.drop (k * 6)).drop 6) := by
    conv_lhs => rw [h1]
    rw [parseBinary_append, parseBinary_append, List.length_append, hchunk, hrest,
      pow_add, two_pow_six_nat]
    ring
  have hlt1 : parseBinary ((b.drop (k * 6)).drop 6) < 64 ^ (L - 1 - k) := by
    have := parseBinary_lt ((b.drop (k * 6)).drop 6)
    rwa [hrest, two_pow_six_nat] at this
  have hlt2 : parseBinary ((b.drop (k * 6)).take 6) < 64 := by
    have := parseBinary_lt ((b.drop (k * 6)).take 6)
    rwa [hchunk] at this
  have hdiv : parseBinary b / 64 ^ (L - 1 - k) =
      parseBinary (b.take (k * 6)) * 64 + parseBinary ((b.drop (k * 6)).take 6) := by
    apply Nat.div_eq_of_lt_le
    · rw [hval]; omega
    · rw [hval, Nat.succ_mul]
      omega
  rw [hdiv]
  omega

/-- Strings of binary digits of the same length with a smaller value give
symbols that come first in the order of the alphabet. -/
theorem encodeSymbols_lex : ∀ (c : Nat) (b1 b2 : List Char), b1.length = 6 * c →
    b2.length = 6 * c → parseBinary b1 < parseBinary b2 →
    List.Lex (fun x y => indexOf radix.toList x < indexOf radix.toList y)
      (encodeSymbols b1 c) (encodeSymbols b2 c) := by
  intro c
  induction c with
  | zero =>
    intro b1 b2 h1 h2 hlt
    rw [List.length_eq_zero.mp (by omega : b1.length = 0),
      List.length_eq_zero.mp (by omega : b2.length = 0)] at hlt
    omega
  | succ c ih =>
    intro b1 b2 h1 h2 hlt
    have hs1 : b1 = b1.take 6 ++ b1.drop 6 := (List.take_append_drop 6 b1).symm
    have hs2 : b2 = b2.take 6 ++ b2.drop 6 := (List.take_append_drop 6 b2).symm
    have ht1 : (b1.take 6).length = 6 := by rw [List.length_take]; omega
    have ht2 : (b2.take 6).length = 6 := by rw [List.length_take]; omega
    have hd1 : (b1.drop 6).length = 6 * c := by rw [List.length_drop]; omega
    have hd2 : (b2.drop 6).length = 6 * c := by rw [List.length_drop]; omega
    have hv1 : parseBinary (b1.take 6) < 64 := by
      have := parseBinary_lt (b1.take 6); rwa [ht1] at this
    have hv2 : parseBinary (b2.take 6) < 64 := by
      have := parseBinary_lt (b2.take 6); rwa [ht2] at this
    have hr1 := parseBinary_lt (b1.drop 6)
    have hr2 := parseBinary_lt (b2.drop 6)
    rw [hd1] at hr1
    rw [hd2] at hr2
    have hp1 : parseBinary b1 =
        parseBinary (b1.take 6) * 2 ^ (6 * c) + parseBinary (b1.drop 6) := by
      conv_lhs => rw [hs1]
      rw [parseBinary_append, hd1]
    have hp2 : parseBinary b2 =
        parseBinary (b2.take 6) * 2 ^ (6 * c) + parseBinary (b2.drop 6) := by
      conv_lhs => rw [hs2]
      rw [parseBinary_append, hd2]
    obtain ⟨ch1, hch1, _, hi1⟩ := radixAt_lt _ hv1
    obtain ⟨ch2, hch2, _, hi2⟩ := radixAt_lt _ hv2
    rw [hs1, hs2, encodeSymbols_succ _ _ _ ht1, encodeSymbols_succ _ _ _ ht2, hch1, hch2]
    simp only [List.singleton_append]
    rcases Nat.lt_trichotomy (parseBinary (b1.take 6)) (parseBinary (b2.take 6)) with h | h | h
    · apply List.Lex.rel
      rw [hi1, hi2]
      exact_mod_cast h
    · have hch : ch1 = ch2 := by
        rw [h, hch2] at hch1
        simpa using hch1.symm
      subst hch
      apply List.Lex.cons
      apply ih _ _ hd1 hd2
      rw [hp1, hp2, h] at hlt
      omega
    · exfalso
      rw [hp1, hp2] at hlt
      have : (parseBinary (b2.take 6) + 1) * 2 ^ (6 * c) ≤
          parseBinary (b1.take 6) * 2 ^ (6 * c) :=
        Nat.mul_le_mul_right _ h
      rw [Nat.add_mul] at this
      omega

/-- The number of symbols of `encode(n)` is the band of `n`, and the symbols
come from the binary digits of the place of `n` in its band. -/
theorem encode_band (n : Int) (h0 : 0 ≤ n) (L : Nat) (hlo : charmLengthOffset L ≤ n)
    (hhi : n < charmLengthOffset (L + 1)) :
    ∃ b : List Char, b.length = 6 * L ∧ (parseBinary b : Int) = n - charmLengthOffset L ∧
      (encode n).toList = encodeSymbols b L := by
  obtain ⟨c, b, hclo, hchi, hlen, _, hval, henc⟩ := encode_bits n h0
  rw [charmLengthOffset_succ] at hchi hhi
  obtain ⟨hc, _⟩ := band_unique (c := c) (d := L) (r := n - charmLengthOffset c)
    (q := n - charmLengthOffset L) (by omega) (by omega) (by omega) (by omega) (by ring)
  subst hc
  exact ⟨b, hlen, hval, henc⟩

/-! ## What `this[key]` finds -/

/-- A name under which `this[key]` finds a subpart is none of `key`,
`subparts`, `cardinality`, and the table of subpart properties holds it. -/
theorem getMember_subpart {table key : String} {subparts : List Part} {cardinality : Int}
    {k : String} {i : Nat} {p : Part}
    (h : getMember table key subparts cardinality k = .subpart i p) :
    k ≠ "key" ∧ k ≠ "subparts" ∧ k ≠ "cardinality" ∧ subparts.get? i = some p ∧
      getProp (subpartProps subparts) k = some i := by
  unfold getMember at h
  split at h
  · cases h
  · split at h
    · cases h
    · split at h
      · cases h
      · rename_i h1 h2 h3
        split at h
        · rename_i j hj
          split at h
          · rename_i q hq
            simp only [Member.subpart.injEq] at h
            obtain ⟨rfl, rfl⟩ := h
            exact ⟨h1, h2, h3, hq, hj⟩
          · cases h
        · repeat' (first | cases h | split at h)

/-- In a node that was built, a key of a subpart under which `this[key]` finds
a subpart finds the subpart with that key. -/
theorem getMember_child {subparts : List Part} {props : List (String × Nat)}
    (hdef : defineSubparts subparts 0 [] = .ok props) {table key : String} {cardinality : Int}
    {i j : Nat} {p child : Part}
    (h : getMember table key subparts cardinality child.key = .subpart i p)
    (hget : subparts.get? j = some child) : i = j ∧ p = child := by
  have hne := (getMember_subpart h).2.2.1
  rw [getMember_key hdef hget hne] at h
  simp only [Member.subpart.injEq] at h
  exact ⟨h.1.symm, h.2.symm⟩

theorem defineProperty_none {props props' : List (String × Nat)} {name k : String} {index : Nat}
    (h : defineProperty props name index = .ok props') (hk : getProp props k = none)
    (hne : name ≠ k) : getProp props' k = none := by
  unfold defineProperty at h
  split at h
  · cases h
  · split at h
    · simp only [Except.ok.injEq] at h
      subst h
      exact hk
    · split at h
      · simp only [Except.ok.injEq] at h
        subst h
        rw [getProp_append_of_none _ hk]
        simp [getProp, hne]
      · split at h
        · simp only [Except.ok.injEq] at h
          subst h
          exact hk
        · cases h

theorem defineSubparts_none : ∀ (ps : List Part) (index : Nat) (props props' : List (String × Nat))
    (k : String), defineSubparts ps index props = .ok props' → getProp props k = none →
    (∀ p ∈ ps, p.key ≠ k) → (∀ j, j < ps.length → toString (index + j) ≠ k) →
    getProp props' k = none := by
  intro ps
  induction ps with
  | nil =>
    intro index props props' k h hk _ _
    simp only [defineSubparts, Except.ok.injEq] at h
    subst h
    exact hk
  | cons q qs ih =>
    intro index props props' k h hk hkeys hidx
    simp only [defineSubparts] at h
    split at h
    · cases h
    · rename_i props1 h1
      split at h
      · cases h
      · rename_i props2 h2
        have hk1 := defineProperty_none h1 hk (hkeys q (by simp))
        have hk2 := defineProperty_none h2 hk1 (by simpa using hidx 0 (by simp))
        refine ih (index + 1) props2 props' k h hk2 (fun p hp => hkeys p (by simp [hp])) ?_
        intro j hj
        have := hidx (j + 1) (by simpa using hj)
        rwa [show index + (j + 1) = index + 1 + j by omega] at this

/-- In a node that was built, `this[k]` is `undefined` for a name that is
neither the key nor the index of a subpart and names no other member. -/
theorem getMember_undefined {subparts : List Part} {props : List (String × Nat)}
    (h : defineSubparts subparts 0 [] = .ok props) {k : String}
    (hkeys : ∀ p ∈ subparts, p.key ≠ k) (hidx : ∀ j, j < subparts.length → toString j ≠ k)
    (hmem : k ∉ memberNames) (table : String) (htable : table ∈ memberNames) (key : String)
    (cardinality : Int) : getMember table key subparts cardinality k = .undefined := by
  have hnone := defineSubparts_none subparts 0 [] props k h (by simp [getProp]) hkeys
    (by simpa using hidx)
  have hfun : hostFunctions.contains k = false := by
    rw [Bool.eq_false_iff]
    intro hc
    exact hmem (List.mem_append_right _ (by simpa using hc))
  have hne : ∀ x ∈ memberNames, k ≠ x := fun x hx hk => hmem (hk ▸ hx)
  have h1 := hne "key" (by decide)
  have h2 := hne "subparts" (by decide)
  have h3 := hne "cardinality" (by decide)
  have h4 := hne "parent" (by decide)
  have h5 := hne "index" (by decide)
  have h6 := hne "path" (by decide)
  have h7 := hne "__proto__" (by decide)
  have h8 := hne table htable
  simp only [getMember, subpartProps, h, hnone, h1, h2, h3, h4, h5, h6, h7, h8, hfun, if_false,
    Bool.false_eq_true]

/-! ## The rounds of `hash` that do not throw -/

/-- A node on which `hash` returns has no subpart keyed `hash`. -/
theorem tuple_hash_ok_shadows {key : String} {subparts : List Part} {model : Model}
    {format : String} {v : Hash}
    (h : (Part.tuple key subparts).hash model format = .ok v) :
    shadows subparts "hash" = false := by
  rw [Bool.eq_false_iff]
  intro hs
  cases model <;> simp [Part.hash, hs] at h

/-- A result of `Tuple.hash`: `0n` for the empty mapping, or the sum of the
loop, which is below the cardinality. -/
theorem tuple_hash_ok {key : String} {subparts : List Part} {entries : List (String × Model)}
    {format : String} {v : Hash}
    (h : (Part.tuple key subparts).hash (.obj entries) format = .ok v) :
    (entries.length = 0 ∧ v = .bigint 0) ∨
      (entries.length ≠ 0 ∧ ∃ n, tupleHashLoop key subparts entries 0 = .ok n ∧
        n < (Part.tuple key subparts).cardinality ∧
        v = (if format = "string" then .string (encode n) else .bigint n)) := by
  simp only [Part.hash] at h
  split at h
  · cases h
  · split at h
    · rename_i he
      simp only [Except.ok.injEq] at h
      exact Or.inl ⟨he, h.symm⟩
    · rename_i he
      split at h
      · cases h
      · rename_i n hn
        split at h
        · cases h
        · rename_i hlt
          simp only [Except.ok.injEq] at h
          exact Or.inr ⟨he, n, hn, not_le.mp hlt, h.symm⟩

/-- A result of `Choice.hash` for a string: the key reached a subpart, and its
offset is below the cardinality. -/
theorem choice_hash_str_ok {key : String} {subparts : List Part} {k format : String} {v : Hash}
    (h : (Part.choice key subparts).hash (.str k) format = .ok v) :
    ∃ i p, getMember "offsets" key subparts (Part.choice key subparts).cardinality k =
        .subpart i p ∧
      tableGet (offsets subparts) i < (Part.choice key subparts).cardinality ∧
      v = (if format = "string" then .string (encode (tableGet (offsets subparts) i))
        else .bigint (tableGet (offsets subparts) i)) := by
  simp only [Part.hash] at h
  split at h
  · cases h
  · split at h
    · rename_i i p hget
      split at h
      · cases h
      · rename_i hlt
        simp only [Except.ok.injEq, add_zero] at h hlt
        exact ⟨i, p, hget, not_le.mp hlt, h.symm⟩
    all_goals cases h

/-- A result of `Choice.hash` for a mapping with one entry: the key reached a
subpart, the subpart hashed the value, and the offset plus that hash is below
the cardinality. -/
theorem choice_hash_obj_ok {key : String} {subparts : List Part} {k : String} {value : Model}
    {format : String} {v : Hash}
    (h : (Part.choice key subparts).hash (.obj [(k, value)]) format = .ok v) :
    ∃ i p m, getMember "offsets" key subparts (Part.choice key subparts).cardinality k =
        .subpart i p ∧ p.hash value "bigint" = .ok (.bigint m) ∧
      tableGet (offsets subparts) i + m < (Part.choice key subparts).cardinality ∧
      v = (if format = "string" then .string (encode (tableGet (offsets subparts) i + m))
        else .bigint (tableGet (offsets subparts) i + m)) := by
  simp only [Part.hash] at h
  split at h
  · cases h
  · split at h
    · rename_i i p hget
      split at h
      · cases h
      · cases h
      · rename_i m hm
        split at h
        · cases h
        · rename_i hlt
          simp only [Except.ok.injEq] at h
          exact ⟨i, p, m, hget, hm, not_le.mp hlt, h.symm⟩
    all_goals cases h

/-- A result of `Choice.hash` for the empty mapping is `0n`. -/
theorem choice_hash_nil_ok {key : String} {subparts : List Part} {format : String} {v : Hash}
    (h : (Part.choice key subparts).hash (.obj []) format = .ok v) : v = .bigint 0 := by
  simp only [Part.hash] at h
  split at h
  · cases h
  · simp only [Except.ok.injEq] at h
    exact h.symm

/-- There is no result of `Choice.hash` for a mapping with two entries or more. -/
theorem choice_hash_many {key : String} {subparts : List Part} {a b : String × Model}
    {l : List (String × Model)} {format : String} {v : Hash}
    (h : (Part.choice key subparts).hash (.obj (a :: b :: l)) format = .ok v) : False := by
  simp only [Part.hash] at h
  split at h <;> cases h

theorem tupleHashLoop_append (name : String) (subparts : List Part) :
    ∀ (l1 l2 : List (String × Model)) (a a' : Int), tupleHashLoop name subparts l1 a = .ok a' →
      tupleHashLoop name subparts (l1 ++ l2) a = tupleHashLoop name subparts l2 a' := by
  intro l1
  induction l1 with
  | nil =>
    intro l2 a a' h
    simp only [tupleHashLoop, Except.ok.injEq] at h
    simp [h]
  | cons e rest ih =>
    intro l2 a a' h
    obtain ⟨k, v⟩ := e
    obtain ⟨i, p, m, hget, hm, hrest⟩ := tupleHashLoop_cons_ok h
    simp only [List.cons_append, tupleHashLoop, hget, hm]
    exact ih l2 _ a' hrest

/-- When the loop of `Tuple.hash` returns, every key reached a subpart and
that subpart hashed the value. -/
theorem tupleHashLoop_members (name : String) (subparts : List Part) :
    ∀ (entries : List (String × Model)) (a r : Int),
      tupleHashLoop name subparts entries a = .ok r →
      ∀ e ∈ entries, ∃ i p m,
        getMember "placeValues" name subparts (Part.tuple name subparts).cardinality e.1 =
          .subpart i p ∧ p.hash e.2 "bigint" = .ok (.bigint m) := by
  intro entries
  induction entries with
  | nil => intro a r _ e he; cases he
  | cons e0 rest ih =>
    intro a r h e he
    obtain ⟨k, v⟩ := e0
    obtain ⟨i, p, m, hget, hm, hrest⟩ := tupleHashLoop_cons_ok h
    rcases List.mem_cons.mp he with h1 | h1
    · subst h1
      exact ⟨i, p, m, hget, hm⟩
    · exact ih _ r hrest e h1

/-! ## Partial models -/

/-- Entries that hold the zero-indexed state of subparts add nothing to the
sum of `Tuple.hash`. -/
theorem tupleHashLoop_defaults (name : String) (subparts : List Part)
    (props : List (String × Nat)) (hdef : defineSubparts subparts 0 [] = .ok props)
    (hall : ∀ p ∈ subparts, p.constructs = true)
    (hplain : ∀ p ∈ subparts, p.key ∉ memberNames ∧ p.plainKeys = true)
    (hcard : ∀ p ∈ subparts, 1 ≤ p.cardinality) :
    ∀ (cs : List Part), (∀ c ∈ cs, c ∈ subparts) → ∀ a : Int,
      tupleHashLoop name subparts (cs.map (fun child => (child.key, zeroState child))) a =
        .ok a := by
  intro cs
  induction cs with
  | nil => intro _ a; simp [tupleHashLoop]
  | cons c cs ih =>
    intro hmem a
    have hc : c ∈ subparts := hmem c (by simp)
    obtain ⟨i, hi⟩ := List.mem_iff_get?.mp hc
    obtain ⟨m, hun, hha⟩ := roundtrip_bigint c (hall c hc) (hplain c hc).2 0 (le_refl _)
      (by have := hcard c hc; omega)
    have hz : zeroState c = m := by simp only [zeroState, hun]
    simp only [List.map_cons, tupleHashLoop, getMember_key hdef hi (ne_cardinality (hplain c hc).1),
      hz, hha, zero_mul, add_zero]
    exact ih (fun x hx => hmem x (by simp [hx])) a

/-! ## The range of `hash` -/

/-- With the format `"bigint"`, `hash` returns a BigInt. -/
theorem hash_bigint (p : Part) (model : Model) (v : Hash)
    (h : p.hash model "bigint" = .ok v) : ∃ n, v = .bigint n := by
  cases p with
  | base key =>
    cases model <;> simp [Part.hash, bigint_ne_string] at h
    exact ⟨0, h.symm⟩
  | tuple key subparts =>
    cases model with
    | obj entries =>
      rcases tuple_hash_ok h with ⟨_, hv⟩ | ⟨_, n, _, _, hv⟩
      · exact ⟨0, hv⟩
      · exact ⟨n, by simpa [bigint_ne_string] using hv⟩
    | null => simp [Part.hash] at h
    | undefined => simp [Part.hash] at h
    | str s => simp [Part.hash] at h
  | choice key subparts =>
    cases model with
    | obj entries =>
      match entries, h with
      | [], h => exact ⟨0, choice_hash_nil_ok h⟩
      | [(k, value)], h =>
        obtain ⟨i, p, m, _, _, _, hv⟩ := choice_hash_obj_ok h
        exact ⟨_, by simpa [bigint_ne_string] using hv⟩
      | _ :: _ :: _, h => exact (choice_hash_many h).elim
    | null => simp [Part.hash] at h
    | undefined => simp [Part.hash] at h
    | str s =>
      obtain ⟨i, p, _, _, hv⟩ := choice_hash_str_ok h
      exact ⟨_, by simpa [bigint_ne_string] using hv⟩

/-- A result of `hash` is below the cardinality of the node, when that is at
least 1. -/
theorem hash_lt (p : Part) (model : Model) (n : Int)
    (h : p.hash model "bigint" = .ok (.bigint n)) (hc : 1 ≤ p.cardinality) :
    n < p.cardinality := by
  cases p with
  | base key =>
    cases model <;> simp [Part.hash, bigint_ne_string] at h
    rw [← h]; simp [Part.cardinality]
  | tuple key subparts =>
    cases model with
    | obj entries =>
      rcases tuple_hash_ok h with ⟨_, hv⟩ | ⟨_, r, _, hlt, hv⟩
      · simp only [Hash.bigint.injEq] at hv; omega
      · simp only [bigint_ne_string, if_false, Hash.bigint.injEq] at hv; omega
    | null => simp [Part.hash] at h
    | undefined => simp [Part.hash] at h
    | str s => simp [Part.hash] at h
  | choice key subparts =>
    cases model with
    | obj entries =>
      match entries, h with
      | [], h =>
        have hv := choice_hash_nil_ok h
        simp only [Hash.bigint.injEq] at hv; omega
      | [(k, value)], h =>
        obtain ⟨i, p, m, _, _, hlt, hv⟩ := choice_hash_obj_ok h
        simp only [bigint_ne_string, if_false, Hash.bigint.injEq] at hv; omega
      | _ :: _ :: _, h => exact (choice_hash_many h).elim
    | null => simp [Part.hash] at h
    | undefined => simp [Part.hash] at h
    | str s =>
      obtain ⟨i, p, _, hlt, hv⟩ := choice_hash_str_ok h
      simp only [bigint_ne_string, if_false, Hash.bigint.injEq] at hv; omega

theorem tupleHashLoop_nonneg (name : String) (subparts : List Part) :
    ∀ (entries : List (String × Model)),
      (∀ e ∈ entries, ∀ (q : Part) (m : Int), q.hash e.2 "bigint" = .ok (.bigint m) → 0 ≤ m) →
      ∀ (a r : Int), 0 ≤ a → tupleHashLoop name subparts entries a = .ok r → 0 ≤ r := by
  intro entries
  induction entries with
  | nil =>
    intro _ a r ha h
    simp only [tupleHashLoop, Except.ok.injEq] at h
    omega
  | cons e rest ih =>
    intro hval a r ha h
    obtain ⟨k, v⟩ := e
    obtain ⟨i, p, m, _, hm, hrest⟩ := tupleHashLoop_cons_ok h
    have hm0 := hval (k, v) (by simp) p m hm
    have hpv := tableGet_placeValues_nonneg subparts i
    exact ih (fun e he => hval e (by simp [he])) _ r (add_nonneg ha (mul_nonneg hm0 hpv)) hrest

/-- A result of `hash` is not negative. -/
theorem hash_nonneg : ∀ (model : Model) (p : Part) (n : Int),
    p.hash model "bigint" = .ok (.bigint n) → 0 ≤ n := by
  apply Model.induct_values
  · intro p n h
    cases p <;> simp [Part.hash, bigint_ne_string] at h
    omega
  · intro p n h
    cases p <;> simp [Part.hash] at h
  · intro s p n h
    cases p with
    | base key => simp [Part.hash] at h
    | tuple key subparts => simp [Part.hash] at h
    | choice key subparts =>
      obtain ⟨i, p, _, _, hv⟩ := choice_hash_str_ok h
      simp only [bigint_ne_string, if_false, Hash.bigint.injEq] at hv
      have := tableGet_offsets_nonneg subparts i
      omega
  · intro entries ih p n h
    cases p with
    | base key => simp [Part.hash] at h
    | tuple key subparts =>
      rcases tuple_hash_ok h with ⟨_, hv⟩ | ⟨_, r, hl, _, hv⟩
      · simp only [Hash.bigint.injEq] at hv; omega
      · simp only [bigint_ne_string, if_false, Hash.bigint.injEq] at hv
        have := tupleHashLoop_nonneg key subparts entries (fun e he q m hq => ih e he q m hq)
          0 r (le_refl _) hl
        omega
    | choice key subparts =>
      match entries, ih, h with
      | [], _, h =>
        have hv := choice_hash_nil_ok h
        simp only [Hash.bigint.injEq] at hv; omega
      | [(k, value)], ih, h =>
        obtain ⟨i, p, m, _, hm, _, hv⟩ := choice_hash_obj_ok h
        simp only [bigint_ne_string, if_false, Hash.bigint.injEq] at hv
        have hm0 := ih (k, value) (by simp) p m hm
        have := tableGet_offsets_nonneg subparts i
        omega
      | _ :: _ :: _, _, h => exact (choice_hash_many h).elim

/-! ## The sum computed by `Tuple.hash` -/

/-- The loop of `Tuple.hash` over entries whose keys are keys of subparts,
none of them `cardinality`, and whose values hash against them: the result is
the running sum plus, for each entry, the hash of the value times the product
of the cardinalities of the subparts after the one with that key. -/
theorem tupleHashLoop_terms (name : String) (subparts : List Part) (props : List (String × Nat))
    (hdef : defineSubparts subparts 0 [] = .ok props) :
    ∀ (entries : List (String × Model)) (a : Int),
      (∀ e ∈ entries, ∃ child ∈ subparts, child.key = e.1) →
      (∀ e ∈ entries, e.1 ≠ "cardinality") →
      (∀ e ∈ entries, ∀ child ∈ subparts, child.key = e.1 →
        ∃ v, child.hash e.2 "bigint" = .ok v) →
      ∃ parts : List (Nat × Int),
        List.Forall₂ (fun e t => ∃ child, subparts.get? t.1 = some child ∧ child.key = e.1 ∧
          child.hash e.2 "bigint" = .ok (.bigint t.2)) entries parts ∧
        tupleHashLoop name subparts entries a = .ok (a + (parts.map (fun t =>
          t.2 * ((subparts.drop (t.1 + 1)).map Part.cardinality).prod)).sum) := by
  intro entries
  induction entries with
  | nil =>
    intro a _ _ _
    exact ⟨[], List.Forall₂.nil, by simp [tupleHashLoop]⟩
  | cons e rest ih =>
    intro a hk hnc hs
    obtain ⟨k, v⟩ := e
    obtain ⟨child, hmem, hkey⟩ := hk (k, v) (by simp)
    obtain ⟨i, hi⟩ := List.mem_iff_get?.mp hmem
    obtain ⟨res, hres⟩ := hs (k, v) (by simp) child hmem hkey
    obtain ⟨m, rfl⟩ := hash_bigint child v res hres
    obtain ⟨hlt, _⟩ := List.get?_eq_some.mp hi
    simp only [] at hkey
    have hcne : child.key ≠ "cardinality" := by rw [hkey]; exact hnc (k, v) (by simp)
    have hsub := getMember_key hdef hi hcne "placeValues" name
      (Part.tuple name subparts).cardinality
    rw [hkey] at hsub
    obtain ⟨parts, hrel, hloop⟩ := ih (a + m * tableGet (placeValues subparts) i)
      (fun e he => hk e (by simp [he])) (fun e he => hnc e (by simp [he]))
      (fun e he => hs e (by simp [he]))
    refine ⟨(i, m) :: parts, List.Forall₂.cons ⟨child, hi, hkey, hres⟩ hrel, ?_⟩
    simp only [tupleHashLoop, hsub, hres, hloop, List.map_cons, List.sum_cons]
    rw [tableGet_placeValues subparts i hlt, add_assoc]

/-- When the loop of `Tuple.hash` returns, no key is `cardinality`, and the
value of every entry whose key is the key of a subpart has been hashed against
that subpart. -/
theorem tupleHashLoop_values (name : String) (subparts : List Part) (props : List (String × Nat))
    (hdef : defineSubparts subparts 0 [] = .ok props)
    (entries : List (String × Model)) (a r : Int)
    (h : tupleHashLoop name subparts entries a = .ok r) :
    (∀ e ∈ entries, e.1 ≠ "cardinality") ∧
      ∀ e ∈ entries, ∀ child ∈ subparts, child.key = e.1 →
        ∃ v, child.hash e.2 "bigint" = .ok v := by
  have hmem := tupleHashLoop_members name subparts entries a r h
  constructor
  · intro e he
    obtain ⟨i, p, m, hget, _⟩ := hmem e he
    exact (getMember_subpart hget).2.2.1
  · intro e he child hc hkey
    obtain ⟨i, p, m, hget, hm⟩ := hmem e he
    obtain ⟨j, hj⟩ := List.mem_iff_get?.mp hc
    rw [← hkey] at hget
    obtain ⟨_, rfl⟩ := getMember_child hdef hget hj
    exact ⟨_, hm⟩

/-- Over entries whose keys are keys of subparts and whose values hash
against them, the loop of `Tuple.hash` returns, or it throws a `TypeError` or
a `ReferenceError` at the key `cardinality`. -/
theorem tupleHashLoop_outcome (name : String) (subparts : List Part) (props : List (String × Nat))
    (hdef : defineSubparts subparts 0 [] = .ok props) :
    ∀ (entries : List (String × Model)) (a : Int),
      (∀ e ∈ entries, ∃ child ∈ subparts, child.key = e.1) →
      (∀ e ∈ entries, ∀ child ∈ subparts, child.key = e.1 →
        ∃ v, child.hash e.2 "bigint" = .ok v) →
      (∃ r, tupleHashLoop name subparts entries a = .ok r) ∨
        tupleHashLoop name subparts entries a = .error .typeError ∨
        tupleHashLoop name subparts entries a = .error .referenceError := by
  intro entries
  induction entries with
  | nil => intro a _ _; exact Or.inl ⟨a, by simp [tupleHashLoop]⟩
  | cons e rest ih =>
    intro a hk hs
    obtain ⟨k, v⟩ := e
    by_cases hc : k = "cardinality"
    · subst hc
      right
      simp only [tupleHashLoop, getMember]
      by_cases h0 : (Part.tuple name subparts).cardinality = 0
      · right; simp [h0]
      · left; simp [h0]
    · obtain ⟨child, hmem, hkey⟩ := hk (k, v) (by simp)
      obtain ⟨i, hi⟩ := List.mem_iff_get?.mp hmem
      obtain ⟨res, hres⟩ := hs (k, v) (by simp) child hmem hkey
      obtain ⟨m, rfl⟩ := hash_bigint child v res hres
      simp only [] at hkey
      have hsub := getMember_key hdef hi (by rw [hkey]; exact hc) "placeValues" name
        (Part.tuple name subparts).cardinality
      rw [hkey] at hsub
      simp only [tupleHashLoop, hsub, hres]
      exact ih _ (fun e he => hk e (by simp [he])) (fun e he => hs e (by simp [he]))

theorem forall₂_mem_right {α β : Type} {R : α → β → Prop} {l1 : List α} {l2 : List β}
    (h : List.Forall₂ R l1 l2) : ∀ b ∈ l2, ∃ a ∈ l1, R a b := by
  induction h with
  | nil => intro b hb; cases hb
  | cons hab _ ih =>
    intro b hb
    rcases List.mem_cons.mp hb with h1 | h1
    · subst h1; exact ⟨_, by simp, hab⟩
    · obtain ⟨a, ha, hr⟩ := ih b h1
      exact ⟨a, by simp [ha], hr⟩

/-- Entries with different keys reach different subparts. -/
theorem parts_nodup (subparts : List Part) {entries : List (String × Model)}
    {parts : List (Nat × Int)}
    (h : List.Forall₂ (fun e t => ∃ child, subparts.get? t.1 = some child ∧ child.key = e.1 ∧
      child.hash e.2 "bigint" = .ok (.bigint t.2)) entries parts)
    (hnodup : (entries.map Prod.fst).Nodup) : (parts.map Prod.fst).Nodup := by
  induction h with
  | nil => simp
  | cons hab hrest ih =>
    rename_i e t rest parts'
    simp only [List.map_cons, List.nodup_cons] at hnodup ⊢
    refine ⟨?_, ih hnodup.2⟩
    intro hin
    obtain ⟨t', ht', heq⟩ := List.mem_map.mp hin
    obtain ⟨e', he', child', hget', hkey', _⟩ := forall₂_mem_right hrest t' ht'
    obtain ⟨child, hget, hkey, _⟩ := hab
    rw [heq, hget] at hget'
    simp only [Option.some.injEq] at hget'
    apply hnodup.1
    rw [← hkey, hget', hkey']
    exact List.mem_map.mpr ⟨e', he', rfl⟩

/-- The largest sum of `Tuple.hash`: with every subpart at its last state the
terms add up to the cardinality less one. -/
theorem telescope (cs : List Int) :
    (Finset.range cs.length).sum (fun i => (cs.getD i 1 - 1) * (cs.drop (i + 1)).prod) =
      cs.prod - 1 := by
  induction cs with
  | nil => simp
  | cons c cs ih =>
    rw [List.length_cons, Finset.sum_range_succ']
    simp only [List.getD_cons_succ, List.drop_succ_cons, List.getD_cons_zero, List.drop_zero,
      Nat.zero_add, List.prod_cons]
    rw [ih]
    ring

theorem sum_le_telescope (cs : List Int) (hcs : ∀ c ∈ cs, 1 ≤ c) (idx : List Nat)
    (hnodup : idx.Nodup) (hlt : ∀ i ∈ idx, i < cs.length) :
    (idx.map (fun i => (cs.getD i 1 - 1) * (cs.drop (i + 1)).prod)).sum ≤ cs.prod - 1 := by
  rw [← List.sum_toFinset _ hnodup, ← telescope cs]
  apply Finset.sum_le_sum_of_subset_of_nonneg
  · intro i hi
    exact Finset.mem_range.mpr (hlt i (List.mem_toFinset.mp hi))
  · intro i hi _
    have hi' := Finset.mem_range.mp hi
    apply mul_nonneg
    · rw [List.getD_eq_getElem _ _ hi']
      have := hcs _ (List.getElem_mem hi')
      omega
    · apply List.prod_nonneg
      intro x hx
      have := hcs x (List.mem_of_mem_drop hx)
      omega

/-- The sum of `Tuple.hash` over entries with different keys stays below the
cardinality, when the subparts have cardinality at least 1. -/
theorem parts_sum_lt (subparts : List Part) (hcard : ∀ child ∈ subparts, 1 ≤ child.cardinality)
    {entries : List (String × Model)} {parts : List (Nat × Int)}
    (h : List.Forall₂ (fun e t => ∃ child, subparts.get? t.1 = some child ∧ child.key = e.1 ∧
      child.hash e.2 "bigint" = .ok (.bigint t.2)) entries parts)
    (hnodup : (entries.map Prod.fst).Nodup) :
    0 ≤ (parts.map (fun t =>
        t.2 * ((subparts.drop (t.1 + 1)).map Part.cardinality).prod)).sum ∧
      (parts.map (fun t => t.2 * ((subparts.drop (t.1 + 1)).map Part.cardinality).prod)).sum <
        (subparts.map Part.cardinality).prod := by
  have hcs : ∀ c ∈ subparts.map Part.cardinality, 1 ≤ c := by
    intro c hc
    obtain ⟨q, hq, rfl⟩ := List.mem_map.mp hc
    exact hcard q hq
  have hfacts : ∀ t ∈ parts, t.1 < (subparts.map Part.cardinality).length ∧
      0 ≤ t.2 * ((subparts.drop (t.1 + 1)).map Part.cardinality).prod ∧
      t.2 * ((subparts.drop (t.1 + 1)).map Part.cardinality).prod ≤
        ((subparts.map Part.cardinality).getD t.1 1 - 1) *
          ((subparts.map Part.cardinality).drop (t.1 + 1)).prod := by
    intro t ht
    obtain ⟨e, _, child, hget, _, hhash⟩ := forall₂_mem_right h t ht
    obtain ⟨hlt, hchild⟩ := List.get?_eq_some.mp hget
    have hm0 := hash_nonneg e.2 child t.2 hhash
    have hmlt := hash_lt child e.2 t.2 hhash (hcard child (List.get?_mem hget))
    have hpv : 0 ≤ ((subparts.drop (t.1 + 1)).map Part.cardinality).prod := by
      apply List.prod_nonneg
      intro x hx
      obtain ⟨q, _, rfl⟩ := List.mem_map.mp hx
      exact cardinality_nonneg q
    have hgetD : (subparts.map Part.cardinality).getD t.1 1 = child.cardinality := by
      rw [List.getD_eq_getElem _ _ (by simpa using hlt)]
      simp only [List.getElem_map]
      rw [← hchild]
      rfl
    refine ⟨by simpa using hlt, mul_nonneg hm0 hpv, ?_⟩
    rw [hgetD, List.map_drop]
    exact mul_le_mul_of_nonneg_right (by omega) (by rw [← List.map_drop]; exact hpv)
  constructor
  · apply List.sum_nonneg
    intro x hx
    obtain ⟨t, ht, rfl⟩ := List.mem_map.mp hx
    exact (hfacts t ht).2.1
  · have h1 := List.sum_le_sum (l := parts) (fun t ht => (hfacts t ht).2.2)
    have h2 := sum_le_telescope (subparts.map Part.cardinality) hcs (parts.map Prod.fst)
      (parts_nodup subparts h hnodup) (by
        intro i hi
        obtain ⟨t, ht, rfl⟩ := List.mem_map.mp hi
        exact (hfacts t ht).1)
    rw [List.map_map] at h2
    have h3 : (parts.map ((fun i => ((subparts.map Part.cardinality).getD i 1 - 1) *
        ((subparts.map Part.cardinality).drop (i + 1)).prod) ∘ Prod.fst)).sum =
        (parts.map (fun t => ((subparts.map Part.cardinality).getD t.1 1 - 1) *
          ((subparts.map Part.cardinality).drop (t.1 + 1)).prod)).sum := rfl
    rw [h3] at h2
    omega

/-! # The claims -/

/-- Claim C1 as stated fails.  `Tuple("t", [Choice("__proto__", ["a","b"]),
Choice("z", ["c","d"])])` is built with unique sibling keys and has
cardinality 4; `unhash(3n, "bigint")` returns the mapping with the one entry
`z: "d"`, because the assignment to `__proto__` at line 134 creates no entry,
and `hash` of that mapping is 1, not 3.  `Tuple("t", [Choice("cardinality",
["a","b"]), "z"])` is built and has cardinality 2; `unhash(1n, "bigint")`
returns a mapping with the key `cardinality`, on which `hash` throws a
`TypeError`, because `this.cardinality` is the BigInt.  `Tuple("t",
["unhash", "b"])` is built and has cardinality 1, and the call `unhash(0n,
"bigint")` on it throws a `TypeError`, because the subpart keyed `unhash`
shadows the method. -/
theorem C1_member_key_breaks_roundtrip :
    protoTuple.constructs = true ∧ protoTuple.cardinality = 4 ∧
      protoTuple.unhash 3 = .ok (.obj [("z", .str "d")]) ∧
      protoTuple.hash (.obj [("z", .str "d")]) "bigint" = .ok (.bigint 1) ∧
      (¬ ∃ m, protoTuple.unhash 3 = .ok m ∧ protoTuple.hash m "bigint" = .ok (.bigint 3)) ∧
      cardinalityTuple.constructs = true ∧ cardinalityTuple.cardinality = 2 ∧
      cardinalityTuple.unhash 1 = .ok (.obj [("cardinality", .str "b"), ("z", .null)]) ∧
      cardinalityTuple.hash (.obj [("cardinality", .str "b"), ("z", .null)]) "bigint" =
        .error .typeError ∧
      (Part.tuple "t" [.base "unhash", .base "b"]).constructs = true ∧
      (Part.tuple "t" [.base "unhash", .base "b"]).cardinality = 1 ∧
      (Part.tuple "t" [.base "unhash", .base "b"]).unhash 0 = .error .typeError := by
  refine ⟨by decide, by decide, rfl, rfl, ?_, by decide, by decide, rfl, rfl, by decide,
    by decide, rfl⟩
  rintro ⟨m, hu, hh⟩
  have h3 : protoTuple.unhash 3 = .ok (.obj [("z", .str "d")]) := rfl
  rw [h3] at hu
  simp only [Except.ok.injEq] at hu
  subst hu
  have h1 : protoTuple.hash (.obj [("z", .str "d")]) "bigint" = .ok (.bigint 1) := rfl
  rw [h1] at hh
  simp at hh

/-- Claim C1, amended: for every schema tree that the constructors build and
in which no key of a subpart names a member of a node object (`memberNames`),
and every integer `n` with `0 <= n < cardinality`, `unhash(n, "bigint")`
returns a model and `hash` of that model in `"bigint"` format is `n`. -/
theorem C1_roundtrip_bigint (p : Part) (hbuilt : p.constructs = true)
    (hplain : p.plainKeys = true) (n : Int) (h0 : 0 ≤ n) (hn : n < p.cardinality) :
    ∃ m, p.unhash n = .ok m ∧ p.hash m "bigint" = .ok (.bigint n) :=
  roundtrip_bigint p hbuilt hplain n h0 hn

/-- The round trip of C1 on the example `Tuple`, at `n = 5`. -/
theorem C1_roundtrip_bigint_witness :
    exampleTuple.constructs = true ∧ exampleTuple.plainKeys = true ∧ (0 : Int) ≤ 5 ∧
      (5 : Int) < exampleTuple.cardinality ∧
      ∃ m, exampleTuple.unhash 5 = .ok m ∧ exampleTuple.hash m "bigint" = .ok (.bigint 5) :=
  ⟨by decide, by decide, by decide, by decide,
    C1_roundtrip_bigint exampleTuple (by decide) (by decide) 5 (by decide) (by decide)⟩

/-- Claim C2, at the input where the code departs from it: the `Tuple` without
subparts is built and has cardinality 1, `encode(0)` is the empty string,
`unhash("")` returns the empty mapping, and `hash` of the empty mapping in
`"string"` format returns the BigInt `0n`, not the string. -/
theorem C2_empty_tuple_string_form :
    (Part.tuple "t" []).constructs = true ∧ (0 : Int) < (Part.tuple "t" []).cardinality ∧
      encode 0 = "" ∧
      (Part.tuple "t" []).unhashString (encode 0) = .ok (.obj []) ∧
      (Part.tuple "t" []).hash (.obj []) "string" = .ok (.bigint 0) ∧
      (Except.ok (Hash.bigint 0) : Except JsError Hash) ≠ .ok (.string (encode 0)) :=
  ⟨by decide, by decide, by decide, rfl, rfl, by simp⟩

/-- Claim C3: for every integer `n >= 0`, `decode(encode(n))` returns `n`, so
two non-negative integers with the same encoded string are equal. -/
theorem C3_decode_encode (n : Int) (h0 : 0 ≤ n) :
    decode (encode n) = .ok n ∧ ∀ m : Int, 0 ≤ m → encode m = encode n → m = n := by
  refine ⟨decode_encode n h0, fun m hm h => ?_⟩
  have h1 := decode_encode m hm
  rw [h, decode_encode n h0] at h1
  simpa using h1.symm

/-- The numeral round trip of C3 at `n = 64`. -/
theorem C3_decode_encode_witness :
    (0 : Int) ≤ 64 ∧ decode (encode 64) = .ok 64 ∧
      ∀ m : Int, 0 ≤ m → encode m = encode 64 → m = 64 :=
  ⟨by decide, C3_decode_encode 64 (by decide)⟩

/-- Claim C4: for every string `s` over the alphabet (the empty string too),
`decode(s)` returns an integer `n >= 0` with `encode(n) = s`; hence every
alphabet string is the encoding of an integer, and two alphabet strings that
decode to the same integer are equal. -/
theorem C4_encode_decode (s : String) (hs : ∀ x ∈ s.toList, x ∈ radix.toList) :
    (∃ n, decode s = .ok n ∧ 0 ≤ n ∧ encode n = s) ∧
      ∀ t : String, (∀ x ∈ t.toList, x ∈ radix.toList) → decode t = decode s → t = s := by
  refine ⟨encode_decode s hs, fun t ht h => ?_⟩
  obtain ⟨n, hn, _, hen⟩ := encode_decode s hs
  obtain ⟨k, hk, _, hek⟩ := encode_decode t ht
  rw [hn, hk] at h
  simp only [Except.ok.injEq] at h
  rw [← hen, ← hek, h]

/-- The numeral round trip of C4 at the string `a_0`. -/
theorem C4_encode_decode_witness :
    (∀ x ∈ "a_0".toList, x ∈ radix.toList) ∧
      (∃ n, decode "a_0" = .ok n ∧ 0 ≤ n ∧ encode n = "a_0") ∧
      ∀ t : String, (∀ x ∈ t.toList, x ∈ radix.toList) → decode t = decode "a_0" → t = "a_0" :=
  ⟨by decide, C4_encode_decode "a_0" (by decide)⟩

/-- Claim C5, at inputs where the code departs from it: the schema
`searchState` of the tests has cardinality 192, and `unhash` returns a model,
without throwing, for the integer of the out-of-range test, for `-1n` and for
the string of the out-of-range string test. -/
theorem C5_out_of_range_returns_model :
    searchState.constructs = true ∧ searchState.cardinality = 192 ∧
      searchState.unhash 123412341234123412341234 = .ok (.obj [
        ("category", .str "books"), ("price", .str "over_100"),
        ("features", .obj [("waterproof", .str "yes"), ("wireless", .str "yes"),
          ("color", .str "red")])]) ∧
      searchState.unhash (-1) = .ok (.obj [
        ("category", .str "electronics"), ("price", .str "under_25"),
        ("features", .obj [("waterproof", .str "yes"), ("wireless", .str "yes"),
          ("color", .str "black")])]) ∧
      searchState.unhashString "hello-world-this-is-too-big-for-search-state" = .ok (.obj [
        ("category", .str "books"), ("price", .str "under_25"),
        ("features", .obj [("waterproof", .str "no"), ("wireless", .str "no"),
          ("color", .str "red")])]) :=
  ⟨by decide, by decide, rfl, rfl, by
    set_option maxRecDepth 100000 in
    rfl⟩

/-- Claim C6, at the input of the bad characters test: `decode` throws the
first character outside the alphabet, the string `" "`, as it is, and
`unhash` passes the same string on; no error object is thrown. -/
theorem C6_bad_character_thrown :
    decode "includes bad+characters$" = .error (.thrown " ") ∧
      searchState.unhashString "includes bad+characters$" = .error (.thrown " ") :=
  ⟨by
    set_option maxRecDepth 100000 in
    rfl, by
    set_option maxRecDepth 100000 in
    rfl⟩

/-- Claim C7, at the input where the code departs from it: for a `Tuple` and
for a `Choice`, `hash` of the empty mapping returns the BigInt `0n` in
`"bigint"` format and the same BigInt, not the string `encode(0n)`, in
`"string"` format. -/
theorem C7_empty_mapping_ignores_format :
    (Part.tuple "t" [.base "a"]).hash (.obj []) "bigint" = .ok (.bigint 0) ∧
      (Part.tuple "t" [.base "a"]).hash (.obj []) "string" = .ok (.bigint 0) ∧
      (Part.choice "c" [.base "a"]).hash (.obj []) "bigint" = .ok (.bigint 0) ∧
      (Part.choice "c" [.base "a"]).hash (.obj []) "string" = .ok (.bigint 0) ∧
      encode 0 = "" :=
  ⟨rfl, rfl, rfl, rfl, by decide⟩

/-- Claim C8 as stated fails.  `Tuple("t", [Choice("cardinality", ["a","b"]),
"z"])` is built and its subparts have cardinality 2 and 1; `hash` of the
mapping with the one entry `z: null` is 0; the omitted subpart has the
zero-indexed state `"a"`; and `hash` of the mapping extended by the entry
`cardinality: "a"` throws a `TypeError`, because `this.cardinality` is the
BigInt. -/
theorem C8_member_key_breaks_defaulting :
    cardinalityTuple.constructs = true ∧
      (∀ child ∈ [choiceOf "cardinality" ["a", "b"], Part.base "z"], 1 ≤ child.cardinality) ∧
      cardinalityTuple.hash (.obj [("z", .null)]) "bigint" = .ok (.bigint 0) ∧
      (choiceOf "cardinality" ["a", "b"]).unhash 0 = .ok (.str "a") ∧
      withDefaults [choiceOf "cardinality" ["a", "b"], Part.base "z"] [("z", .null)] =
        [("z", .null), ("cardinality", .str "a")] ∧
      cardinalityTuple.hash (.obj (withDefaults [choiceOf "cardinality" ["a", "b"], Part.base "z"]
        [("z", .null)])) "bigint" = .error .typeError :=
  ⟨by decide, by decide, rfl, rfl, rfl, rfl⟩

/-- Claim C8, amended: for every `Tuple` that was built, in whose tree no key
of a subpart names a member of a node object, and whose subparts all have
cardinality at least 1, and every mapping on which `hash` succeeds, every
subpart has a zero-indexed state `child.unhash(0n, "bigint")`, and `hash` of
the mapping extended by the zero-indexed states of the omitted subparts, with
its entries in any order, returns the same integer. -/
theorem C8_partial_model_defaulting (key : String) (subparts : List Part)
    (hbuilt : (Part.tuple key subparts).constructs = true)
    (hplain : (Part.tuple key subparts).plainKeys = true)
    (hcard : ∀ child ∈ subparts, 1 ≤ child.cardinality)
    (entries : List (String × Model)) (v : Hash)
    (hhash : (Part.tuple key subparts).hash (.obj entries) "bigint" = .ok v) :
    (∀ child ∈ subparts, ∃ z, child.unhash 0 = .ok z ∧ zeroState child = z) ∧
      ∀ full : List (String × Model), full.Perm (withDefaults subparts entries) →
        (Part.tuple key subparts).hash (.obj full) "bigint" = .ok v := by
  obtain ⟨hall, props, hdef⟩ := constructs_tuple hbuilt
  have hpl := plainKeys_tuple hplain
  constructor
  · intro child hc
    obtain ⟨m, hun, _⟩ := roundtrip_bigint child (hall child hc) (hpl child hc).2 0 (le_refl _)
      (by have := hcard child hc; omega)
    exact ⟨m, hun, by simp only [zeroState, hun]⟩
  · intro full hperm
    have hext : ∀ a : Int, tupleHashLoop key subparts
        ((subparts.filter (fun child => !(entries.map Prod.fst).contains child.key)).map
          (fun child => (child.key, zeroState child))) a = .ok a :=
      tupleHashLoop_defaults key subparts props hdef hall hpl hcard _
        (fun c hc => (List.mem_filter.mp hc).1)
    have hone : 1 ≤ (Part.tuple key subparts).cardinality := by
      rw [cardinality_tuple]
      apply prod_ge_one
      intro x hx
      obtain ⟨q, hq, rfl⟩ := List.mem_map.mp hx
      exact hcard q hq
    have hloop : ∃ n, tupleHashLoop key subparts (withDefaults subparts entries) 0 = .ok n ∧
        n < (Part.tuple key subparts).cardinality ∧ v = .bigint n := by
      rcases tuple_hash_ok hhash with ⟨he, hv⟩ | ⟨_, n, hl, hlt, hv⟩
      · have hnil : entries = [] := List.length_eq_zero.mp he
        subst hnil
        refine ⟨0, ?_, by omega, hv⟩
        simp only [withDefaults, List.nil_append]
        exact hext 0
      · refine ⟨n, ?_, hlt, by simpa [bigint_ne_string] using hv⟩
        simp only [withDefaults]
        rw [tupleHashLoop_append key subparts entries _ 0 n hl, hext n]
    obtain ⟨n, hl, hlt, hv⟩ := hloop
    have hfull := tupleHashLoop_perm key subparts hperm.symm 0 n hl
    have hsh := tuple_hash_ok_shadows hhash
    subst hv
    simp only [Part.hash, hsh, Bool.false_eq_true, if_false]
    split
    · rename_i he
      have hnil : full = [] := List.length_eq_zero.mp he
      subst hnil
      simp only [tupleHashLoop, Except.ok.injEq] at hfull
      rw [hfull]
    · rw [hfull]
      simp only [ge_iff_le, not_le.mpr hlt, if_false, bigint_ne_string]

/-- The defaulting of C8 on the example `Tuple`, for the mapping that gives
only the key `a`. -/
theorem C8_partial_model_defaulting_witness :
    exampleTuple.constructs = true ∧ exampleTuple.plainKeys = true ∧
      (∀ child ∈ [choiceOf "a" ["x", "y"], choiceOf "b" ["p", "q", "r"]], 1 ≤ child.cardinality) ∧
      exampleTuple.hash (.obj [("a", .str "y")]) "bigint" = .ok (.bigint 3) ∧
      exampleTuple.hash (.obj (withDefaults [choiceOf "a" ["x", "y"], choiceOf "b" ["p", "q", "r"]]
        [("a", .str "y")])) "bigint" = .ok (.bigint 3) :=
  ⟨by decide, by decide, by decide, rfl,
    (C8_partial_model_defaulting "t" [choiceOf "a" ["x", "y"], choiceOf "b" ["p", "q", "r"]]
      (by decide) (by decide) (by decide) [("a", .str "y")] (.bigint 3) rfl).2 _
      (List.Perm.refl _)⟩

/-- Claim C9 as stated fails.  `Tuple("t", [Choice("__proto__", ["a","b"]),
Choice("z", ["c","d"])])` is built and has cardinality `2 * 2`, but
`unhash(1n, "bigint")` and `unhash(3n, "bigint")` return the same mapping,
with the one entry `z: "d"` and no entry for the key `__proto__`. -/
theorem C9_proto_key_merges_states :
    protoTuple.constructs = true ∧ protoTuple.cardinality = 2 * 2 ∧
      (0 : Int) ≤ 1 ∧ (1 : Int) < protoTuple.cardinality ∧
      (0 : Int) ≤ 3 ∧ (3 : Int) < protoTuple.cardinality ∧ (1 : Int) ≠ 3 ∧
      protoTuple.unhash 1 = .ok (.obj [("z", .str "d")]) ∧
      protoTuple.unhash 3 = .ok (.obj [("z", .str "d")]) :=
  ⟨by decide, by decide, by decide, by decide, by decide, by decide, by decide, rfl, rfl⟩

/-- Claim C9, amended: for every `Tuple` that was built, the cardinality is
the product of the cardinalities of the subparts (1 without subparts); and
when no key of a subpart in its tree names a member of a node object, for two
different integers `a`, `b` in `[0, cardinality)` the calls
`unhash(a, "bigint")` and `unhash(b, "bigint")` return mappings that have
exactly one entry for each subpart key, in the order of `Object.keys`, and
that are different. -/
theorem C9_product_law (key : String) (subparts : List Part)
    (hbuilt : (Part.tuple key subparts).constructs = true) :
    (Part.tuple key subparts).cardinality = (subparts.map Part.cardinality).prod ∧
      ((Part.tuple key subparts).plainKeys = true →
        ∀ a b : Int, 0 ≤ a → a < (Part.tuple key subparts).cardinality →
          0 ≤ b → b < (Part.tuple key subparts).cardinality → a ≠ b →
          ∃ ea eb, (Part.tuple key subparts).unhash a = .ok (.obj ea) ∧
            (Part.tuple key subparts).unhash b = .ok (.obj eb) ∧
            (ea.map Prod.fst).Perm (subparts.map Part.key) ∧
            (eb.map Prod.fst).Perm (subparts.map Part.key) ∧
            ea ≠ eb) := by
  obtain ⟨hall, props, hdef⟩ := constructs_tuple hbuilt
  refine ⟨cardinality_tuple key subparts, ?_⟩
  intro hplain a b ha0 ha hb0 hb hab
  have hpl := plainKeys_tuple hplain
  rw [cardinality_tuple] at ha hb
  obtain ⟨ra, ea, hua, hpa, hka, hha⟩ :=
    tuple_loops key subparts props hdef (fun p hp => (hpl p hp).1) subparts 0 (by simp)
      (fun p hp => roundtrip_bigint p (hall p hp) (hpl p hp).2) a [] ha0 ha (by simp)
  obtain ⟨rb, eb, hub, hpb, hkb, hhb⟩ :=
    tuple_loops key subparts props hdef (fun p hp => (hpl p hp).1) subparts 0 (by simp)
      (fun p hp => roundtrip_bigint p (hall p hp) (hpl p hp).2) b [] hb0 hb (by simp)
  rw [List.nil_append] at hpa hpb
  have hsu : shadows subparts "unhash" = false := shadows_plain hpl (by decide)
  refine ⟨ra, rb, by simpa [Part.unhash, hsu] using hua, by simpa [Part.unhash, hsu] using hub,
    hka ▸ hpa.map Prod.fst, hkb ▸ hpb.map Prod.fst, ?_⟩
  intro heq
  have h1 := tupleHashLoop_perm key subparts hpa.symm 0 _ (hha 0)
  have h2 := tupleHashLoop_perm key subparts hpb.symm 0 _ (hhb 0)
  rw [heq, h2] at h1
  simp only [zero_add, Except.ok.injEq] at h1
  exact hab h1.symm

/-- The product law of C9 on the example `Tuple`, for the integers 1 and 4. -/
theorem C9_product_law_witness :
    exampleTuple.constructs = true ∧ exampleTuple.plainKeys = true ∧
      exampleTuple.cardinality = 2 * 3 ∧
      ∃ ea eb, exampleTuple.unhash 1 = .ok (.obj ea) ∧ exampleTuple.unhash 4 = .ok (.obj eb) ∧
        (ea.map Prod.fst).Perm ["a", "b"] ∧ (eb.map Prod.fst).Perm ["a", "b"] ∧ ea ≠ eb :=
  ⟨by decide, by decide, by decide,
    (C9_product_law "t" [choiceOf "a" ["x", "y"], choiceOf "b" ["p", "q", "r"]] (by decide)).2
      (by decide) 1 4 (by decide) (by decide) (by decide) (by decide) (by decide)⟩

/-- Claim C10: for every `Choice`, the cardinality is the sum of the
cardinalities of the subparts, the offset of a subpart is the sum of the
cardinalities of the subparts before it, and every integer `n` with
`0 <= n < cardinality` lies in the range
`[offset(i), offset(i) + cardinality(i))` of exactly one subpart `i`. -/
theorem C10_sum_law (key : String) (subparts : List Part) :
    (Part.choice key subparts).cardinality = (subparts.map Part.cardinality).sum ∧
      (∀ i, i < subparts.length →
        tableGet (offsets subparts) i = ((subparts.map Part.cardinality).take i).sum) ∧
      ∀ n : Int, 0 ≤ n → n < (Part.choice key subparts).cardinality →
        ∃! i, ∃ p, subparts.get? i = some p ∧ tableGet (offsets subparts) i ≤ n ∧
          n < tableGet (offsets subparts) i + p.cardinality := by
  refine ⟨cardinality_choice key subparts, fun i hi => tableGet_offsets subparts i hi, ?_⟩
  intro n h0 hn
  rw [cardinality_choice] at hn
  obtain ⟨j, p, hget, _, hlo, hhi, _⟩ :=
    choice_loop subparts subparts 0 (by simp) n (by simpa using h0) hn
  refine ⟨j, ⟨p, hget, hlo, hhi⟩, ?_⟩
  rintro i ⟨q, hq, hqlo, hqhi⟩
  have hnonneg : ∀ x ∈ subparts.map Part.cardinality, 0 ≤ x := by
    intro x hx
    obtain ⟨r, _, rfl⟩ := List.mem_map.mp hx
    exact cardinality_nonneg r
  obtain ⟨hi, _⟩ := List.get?_eq_some.mp hq
  obtain ⟨hj, _⟩ := List.get?_eq_some.mp hget
  rw [tableGet_offsets subparts i hi] at hqlo hqhi
  rw [tableGet_offsets subparts j hj] at hlo hhi
  rw [← take_succ_sum subparts i q hq] at hqhi
  rw [← take_succ_sum subparts j p hget] at hhi
  by_contra hne
  rcases Nat.lt_or_gt_of_ne hne with h | h
  · have := take_sum_mono _ hnonneg (i + 1) j (by omega)
    omega
  · have := take_sum_mono _ hnonneg (j + 1) i (by omega)
    omega

/-- The sum law of C10 on `Choice("flag", ["off", "on"])`, for the integer 1. -/
theorem C10_sum_law_witness :
    (Part.choice "flag" [.base "off", .base "on"]).cardinality = 2 ∧
      ∃! i, ∃ p, [Part.base "off", Part.base "on"].get? i = some p ∧
        tableGet (offsets [Part.base "off", Part.base "on"]) i ≤ 1 ∧
        (1 : Int) < tableGet (offsets [Part.base "off", Part.base "on"]) i + p.cardinality :=
  ⟨by decide,
    (C10_sum_law "flag" [.base "off", .base "on"]).2.2 1 (by decide) (by decide)⟩

/-- Claim C11, at the inputs of the single part tests: on the base `Part`
`under_25`, `unhash(0n, "bigint")` and `unhash("")` return `null`, and
`unhash(1n, "bigint")` and `unhash("1")` throw a plain string, the message of
line 79, not an error object. -/
theorem C11_leaf_throws_string :
    (Part.base "under_25").unhash 0 = .ok .null ∧
      (Part.base "under_25").unhashString "" = .ok .null ∧
      (Part.base "under_25").unhash 1 = .error (.thrown
        "Unhash Error: Hash 1 is outside the range of the base Part (max 0).") ∧
      (Part.base "under_25").unhashString "1" = .error (.thrown
        "Unhash Error: Hash 1 is outside the range of the base Part (max 0).") :=
  ⟨rfl, rfl, rfl, rfl⟩

/-- Claim C12 as stated fails: `"0"` and `"1"` are not keys of subparts, yet
the example `Tuple` hashes the mapping with the one key `"0"` to 3 and
`Choice("flag", ["off", "on"])` hashes the string `"1"` to 1, through the
index properties of line 66; a mapping whose entry before the unknown key
has a wrong model throws a `TypeError`; so does a mapping whose key names
another member of the node, `cardinality` or `hash`; and so does every call of
`hash` on a `Tuple` that has a subpart keyed `hash`. -/
theorem C12_index_key_accepted :
    (∀ p ∈ [choiceOf "a" ["x", "y"], choiceOf "b" ["p", "q", "r"]], p.key ≠ "0") ∧
      exampleTuple.hash (.obj [("0", .str "y")]) "bigint" = .ok (.bigint 3) ∧
      (∀ p ∈ [Part.base "off", Part.base "on"], p.key ≠ "1") ∧
      (Part.choice "flag" [.base "off", .base "on"]).hash (.str "1") "bigint" = .ok (.bigint 1) ∧
      exampleTuple.hash (.obj [("a", .null), ("zz", .str "y")]) "bigint" = .error .typeError ∧
      exampleTuple.hash (.obj [("cardinality", .str "y")]) "bigint" = .error .typeError ∧
      exampleTuple.hash (.obj [("hash", .str "y")]) "bigint" = .error .typeError ∧
      (Part.tuple "t" [.base "hash", .base "b"]).constructs = true ∧
      (Part.tuple "t" [.base "hash", .base "b"]).hash (.obj [("zz", .null)]) "bigint" =
        .error .typeError :=
  ⟨by decide, rfl, by decide, rfl, rfl, rfl, rfl, by decide, rfl⟩

/-- Claim C12, amended: in a node that was built and none of whose subparts
has a key that names a member of the node object (`memberNames`), take a name
`k` that is neither the key nor the index of a subpart, nor the name of a
member.  `Tuple.hash` returns no result for a mapping that has the key `k`,
and throws a `ReferenceError` when the entries before `k` hash; `Choice.hash`
throws a `ReferenceError` for the string `k` and for a mapping with the one
key `k`. -/
theorem C12_unknown_key_rejected (key : String) (subparts : List Part) (k : String)
    (hbuilt : (defineSubparts subparts 0 []).isOk = true)
    (hplain : ∀ p ∈ subparts, p.key ∉ memberNames)
    (hkeys : ∀ p ∈ subparts, p.key ≠ k) (hidx : ∀ j, j < subparts.length → toString j ≠ k)
    (hmember : k ∉ memberNames) (format : String) :
    (∀ entries : List (String × Model), k ∈ entries.map Prod.fst →
      ∀ v, (Part.tuple key subparts).hash (.obj entries) format ≠ .ok v) ∧
    (∀ (before after : List (String × Model)) (value : Model) (r : Int),
      tupleHashLoop key subparts before 0 = .ok r →
      (Part.tuple key subparts).hash (.obj (before ++ (k, value) :: after)) format =
        .error .referenceError) ∧
    (Part.choice key subparts).hash (.str k) format = .error .referenceError ∧
    (∀ value, (Part.choice key subparts).hash (.obj [(k, value)]) format =
      .error .referenceError) := by
  obtain ⟨props, hdef⟩ : ∃ props, defineSubparts subparts 0 [] = .ok props := by
    cases hd : defineSubparts subparts 0 [] with
    | error e => rw [hd] at hbuilt; simp [Except.isOk, Except.toBool] at hbuilt
    | ok props => exact ⟨props, rfl⟩
  have htuple := getMember_undefined hdef hkeys hidx hmember "placeValues" (by decide) key
    (Part.tuple key subparts).cardinality
  have hchoice := getMember_undefined hdef hkeys hidx hmember "offsets" (by decide) key
    (Part.choice key subparts).cardinality
  have hsh : shadows subparts "hash" = false :=
    shadows_eq_false (fun p hp hk => hplain p hp (hk ▸ by decide))
  refine ⟨?_, ?_, ?_, ?_⟩
  · intro entries hin v hv
    obtain ⟨e, he, hk⟩ := List.mem_map.mp hin
    rcases tuple_hash_ok hv with ⟨h0, _⟩ | ⟨_, n, hl, _, _⟩
    · rw [List.length_eq_zero.mp h0] at he
      cases he
    · obtain ⟨i, p, m, hget, _⟩ := tupleHashLoop_members key subparts entries 0 n hl e he
      rw [hk, htuple] at hget
      cases hget
  · intro before after value r hr
    have hne : ¬ (before ++ (k, value) :: after).length = 0 := by simp
    simp only [Part.hash, hsh, Bool.false_eq_true, if_false, if_neg hne]
    rw [tupleHashLoop_append key subparts before _ 0 r hr]
    simp only [tupleHashLoop, htuple]
  · simp only [Part.hash, hsh, Bool.false_eq_true, if_false, hchoice]
  · intro value
    simp only [Part.hash, hsh, Bool.false_eq_true, if_false, hchoice]

/-- The rejection of C12 on the example `Tuple`, for the name `zz` after an
entry that hashes. -/
theorem C12_unknown_key_rejected_witness :
    (defineSubparts [choiceOf "a" ["x", "y"], choiceOf "b" ["p", "q", "r"]] 0 []).isOk = true ∧
      (∀ p ∈ [choiceOf "a" ["x", "y"], choiceOf "b" ["p", "q", "r"]], p.key ≠ "zz") ∧
      (∀ p ∈ [choiceOf "a" ["x", "y"], choiceOf "b" ["p", "q", "r"]], p.key ∉ memberNames) ∧
      (∀ j, j < [choiceOf "a" ["x", "y"], choiceOf "b" ["p", "q", "r"]].length →
        toString j ≠ "zz") ∧
      "zz" ∉ memberNames ∧
      exampleTuple.hash (.obj ([("a", .str "y")] ++ ("zz", .null) :: [])) "bigint" =
        .error .referenceError :=
  ⟨by decide, by decide, by decide, by decide, by decide,
    (C12_unknown_key_rejected "t" [choiceOf "a" ["x", "y"], choiceOf "b" ["p", "q", "r"]] "zz"
      (by decide) (by decide) (by decide) (by decide) (by decide) "bigint").2.1
      [("a", .str "y")] [] .null 3 rfl⟩

/-- Claim C13 as stated fails: `encode(64)` does not have 2 symbols. -/
theorem C13_encode_64_not_two_symbols : ¬ ((encode 64).length = 2) := by decide

/-- Claim C13, amended: `encode(64)` is the string `"0"` of exactly 1 symbol,
the last member of band 1; the first integer with 2 symbols is 65. -/
theorem C13_encode_64_one_symbol :
    encode 64 = "0" ∧ (encode 64).length = 1 ∧ encode 65 = "11" ∧ (encode 65).length = 2 := by
  decide

/-- Claim C14 as stated fails: the `Choice` without subparts is built and has
cardinality 0, and so has a `Tuple` over it. -/
theorem C14_empty_choice_cardinality_zero :
    (Part.choice "c" []).constructs = true ∧ ¬ (1 ≤ (Part.choice "c" []).cardinality) ∧
      (Part.tuple "t" [.choice "c" [], .base "a"]).constructs = true ∧
      ¬ (1 ≤ (Part.tuple "t" [.choice "c" [], .base "a"]).cardinality) := by
  decide

/-- Claim C14, amended: every node has cardinality at least 0, and a node in
whose tree every `Choice` has at least one subpart has cardinality at least
1. -/
theorem C14_cardinality_invariant (p : Part) :
    0 ≤ p.cardinality ∧ (p.everyChoiceNonempty = true → 1 ≤ p.cardinality) :=
  ⟨cardinality_nonneg p, cardinality_pos p⟩

/-- The invariant of C14 on the schema of the tests. -/
theorem C14_cardinality_invariant_witness :
    searchState.everyChoiceNonempty = true ∧ 1 ≤ searchState.cardinality :=
  ⟨by decide, (C14_cardinality_invariant searchState).2 (by decide)⟩

/-- Claim C15 as stated fails: `Choice("c", ["unhash", "b"])` is built and has
cardinality 2, and the call `unhash(0n, "bigint")` on it throws a
`TypeError`, because the subpart keyed `unhash` is defined on the node at line
64 and shadows the method. -/
theorem C15_unhash_key_shadows_method :
    (Part.choice "c" [.base "unhash", .base "b"]).constructs = true ∧
      (Part.choice "c" [.base "unhash", .base "b"]).cardinality = 2 ∧
      (0 : Int) ≤ 0 ∧ (0 : Int) < (Part.choice "c" [.base "unhash", .base "b"]).cardinality ∧
      (Part.choice "c" [.base "unhash", .base "b"]).unhash 0 = .error .typeError :=
  ⟨by decide, by decide, by decide, by decide, rfl⟩

/-- Claim C15, amended: for every `Choice` none of whose subparts is keyed
`unhash`, and every integer `n` with `0 <= n < cardinality`, there is exactly
one subpart `i` whose range `[offset(i), offset(i) + cardinality(i))` holds
`n`, and `unhash(n, "bigint")` returns the key of that subpart when its
cardinality is 1 and otherwise the mapping with the one entry
`key(i): child.unhash(n - offset(i), "bigint")` (throwing what that call
throws); `Choice("flag", ["off", "on"])` decodes 0 to `"off"` and 1 to
`"on"`. -/
theorem C15_choice_unhash (key : String) (subparts : List Part)
    (hmethod : ∀ child ∈ subparts, child.key ≠ "unhash") (n : Int) (h0 : 0 ≤ n)
    (hn : n < (Part.choice key subparts).cardinality) :
    (∃ i child, subparts.get? i = some child ∧
      tableGet (offsets subparts) i ≤ n ∧
      n < tableGet (offsets subparts) i + child.cardinality ∧
      (∀ j other, subparts.get? j = some other → tableGet (offsets subparts) j ≤ n →
        n < tableGet (offsets subparts) j + other.cardinality → j = i) ∧
      (Part.choice key subparts).unhash n =
        (if child.cardinality = 1 then .ok (.str child.key)
         else match child.unhash (n - tableGet (offsets subparts) i) with
           | .error e => .error e
           | .ok value => .ok (.obj [(child.key, value)]))) ∧
      (Part.choice "flag" [.base "off", .base "on"]).unhash 0 = .ok (.str "off") ∧
      (Part.choice "flag" [.base "off", .base "on"]).unhash 1 = .ok (.str "on") := by
  refine ⟨?_, rfl, rfl⟩
  rw [cardinality_choice] at hn
  obtain ⟨i, child, hget, _, hlo, hhi, hloop⟩ :=
    choice_loop subparts subparts 0 (by simp) n (by simpa using h0) hn
  refine ⟨i, child, hget, hlo, hhi, ?_, ?_⟩
  · intro j other hj hjlo hjhi
    exact choice_range_unique subparts n hj hget hjlo hjhi hlo hhi
  · simp only [Part.unhash, shadows_eq_false hmethod, Bool.false_eq_true, if_false]
    exact hloop

/-- The decoding of C15 on `Choice("flag", ["off", "on"])` at `n = 1`. -/
theorem C15_choice_unhash_witness :
    (∀ child ∈ [Part.base "off", Part.base "on"], child.key ≠ "unhash") ∧
      (0 : Int) ≤ 1 ∧ (1 : Int) < (Part.choice "flag" [.base "off", .base "on"]).cardinality ∧
      ∃ i child, [Part.base "off", Part.base "on"].get? i = some child ∧
        tableGet (offsets [Part.base "off", Part.base "on"]) i ≤ 1 ∧
        (1 : Int) < tableGet (offsets [Part.base "off", Part.base "on"]) i + child.cardinality ∧
        (∀ j other, [Part.base "off", Part.base "on"].get? j = some other →
          tableGet (offsets [Part.base "off", Part.base "on"]) j ≤ 1 →
          (1 : Int) < tableGet (offsets [Part.base "off", Part.base "on"]) j + other.cardinality →
          j = i) ∧
        (Part.choice "flag" [.base "off", .base "on"]).unhash 1 =
          (if child.cardinality = 1 then .ok (.str child.key)
           else match child.unhash (1 - tableGet (offsets [Part.base "off", Part.base "on"]) i) with
             | .error e => .error e
             | .ok value => .ok (.obj [(child.key, value)])) :=
  ⟨by decide, by decide, by decide,
    (C15_choice_unhash "flag" [.base "off", .base "on"] (by decide) 1 (by decide)
      (by decide)).1⟩

/-- Claim C16: with `offset(L)` the sum of `64^i` for `i < L`, for every
integer `n >= 0` and every `L`, `encode(n)` has exactly `L` symbols if and
only if `offset(L) <= n < offset(L+1)`, and then its symbols are, from the
left, the symbols of `Part.radix` at the `L` base-64 digits of
`n - offset(L)`, the most significant first; `encode(0)` is the empty
string. -/
theorem C16_length_banding (n : Int) (h0 : 0 ≤ n) (L : Nat) :
    ((encode n).length = L ↔
      (Finset.range L).sum (fun i => (64 : Int) ^ i) ≤ n ∧
        n < (Finset.range (L + 1)).sum (fun i => (64 : Int) ^ i)) ∧
    ((Finset.range L).sum (fun i => (64 : Int) ^ i) ≤ n →
      n < (Finset.range (L + 1)).sum (fun i => (64 : Int) ^ i) →
      (encode n).toList = (List.range L).flatMap (fun k => radixAt
        (((n - (Finset.range L).sum (fun i => (64 : Int) ^ i)).toNat / 64 ^ (L - 1 - k)) % 64))) ∧
    encode 0 = "" := by
  rw [← charmLengthOffset_eq_sum, ← charmLengthOffset_eq_sum]
  have hlength : (encode n).length = (encode n).toList.length := rfl
  refine ⟨⟨?_, ?_⟩, ?_, by decide⟩
  · intro hL
    obtain ⟨c, b, hclo, hchi, hlen, _, _, henc⟩ := encode_bits n h0
    rw [hlength, henc, (encodeSymbols_length c b hlen).1] at hL
    subst hL
    exact ⟨hclo, hchi⟩
  · rintro ⟨hlo, hhi⟩
    obtain ⟨b, hlen, _, henc⟩ := encode_band n h0 L hlo hhi
    rw [hlength, henc, (encodeSymbols_length L b hlen).1]
  · intro hlo hhi
    obtain ⟨b, hlen, hval, henc⟩ := encode_band n h0 L hlo hhi
    rw [henc, encodeSymbols]
    apply List.flatMap_congr
    intro k hk
    rw [parseBinary_slice b L k hlen (List.mem_range.mp hk), ← hval, Int.toNat_ofNat]

/-- The banding of C16 at `n = 64` and `L = 1`: one symbol, the one at the
digit 63. -/
theorem C16_length_banding_witness :
    (0 : Int) ≤ 64 ∧ (encode 64).length = 1 ∧
      (encode 64).toList = (List.range 1).flatMap (fun k => radixAt
        ((((64 : Int) - (Finset.range 1).sum (fun i => (64 : Int) ^ i)).toNat /
          64 ^ (1 - 1 - k)) % 64)) :=
  ⟨by decide, ((C16_length_banding 64 (by decide) 1).1).2 (by decide),
    (C16_length_banding 64 (by decide) 1).2.1 (by decide) (by decide)⟩

/-- Claim C17: in a node that was built and whose subparts all have
cardinality at least 1, `Tuple.hash` of a mapping with different keys, each
the key of a subpart and each with a value that hashes against that subpart,
throws no `RangeError`; when no subpart is keyed `cardinality` or `hash`, it
leaves its loop with a sum below the cardinality and returns it, and
`Choice.hash` returns for the key of a subpart, and for the mapping with one
such key and a value that hashes, with a result below the cardinality; and on
every node of cardinality at least 1 a result of `hash` in `"bigint"` format
is a BigInt in `[0, cardinality)`.  (Under the key `cardinality` the node
holds its BigInt, and under `hash` a subpart in place of the method: there
`hash` throws a `TypeError` or a `ReferenceError` before the guard.) -/
theorem C17_range_guard_unreachable (key : String) (subparts : List Part)
    (hcard : ∀ child ∈ subparts, 1 ≤ child.cardinality) :
    ((Part.tuple key subparts).constructs = true →
      ∀ entries : List (String × Model),
        (∀ e ∈ entries, ∃ child ∈ subparts, child.key = e.1) →
        (entries.map Prod.fst).Nodup →
        (∀ e ∈ entries, ∀ child ∈ subparts, child.key = e.1 →
          ∃ v, child.hash e.2 "bigint" = .ok v) →
        (Part.tuple key subparts).hash (.obj entries) "bigint" ≠ .error .rangeError ∧
        ((∀ child ∈ subparts, child.key ≠ "cardinality" ∧ child.key ≠ "hash") →
          ∃ n, tupleHashLoop key subparts entries 0 = .ok n ∧ 0 ≤ n ∧
            n < (Part.tuple key subparts).cardinality ∧
            (Part.tuple key subparts).hash (.obj entries) "bigint" = .ok (.bigint n))) ∧
    ((Part.choice key subparts).constructs = true →
      (∀ child ∈ subparts, child.key ≠ "cardinality" ∧ child.key ≠ "hash") →
      ∀ child ∈ subparts,
        (∃ n, (Part.choice key subparts).hash (.str child.key) "bigint" = .ok (.bigint n) ∧
          0 ≤ n ∧ n < (Part.choice key subparts).cardinality) ∧
        ∀ sub v, child.hash sub "bigint" = .ok v →
          ∃ n, (Part.choice key subparts).hash (.obj [(child.key, sub)]) "bigint" =
              .ok (.bigint n) ∧
            0 ≤ n ∧ n < (Part.choice key subparts).cardinality) ∧
    (∀ (p : Part) (model : Model) (v : Hash), 1 ≤ p.cardinality →
      p.hash model "bigint" = .ok v → ∃ n, v = .bigint n ∧ 0 ≤ n ∧ n < p.cardinality) := by
  refine ⟨?_, ?_, ?_⟩
  · intro hbuilt entries hk hnodup hs
    obtain ⟨_, props, hdef⟩ := constructs_tuple hbuilt
    have hreturns : (∀ e ∈ entries, e.1 ≠ "cardinality") →
        ∃ n, tupleHashLoop key subparts entries 0 = .ok n ∧ 0 ≤ n ∧
          n < (Part.tuple key subparts).cardinality ∧
          (shadows subparts "hash" = false →
            (Part.tuple key subparts).hash (.obj entries) "bigint" = .ok (.bigint n)) := by
      intro hnc
      obtain ⟨parts, hrel, hloop⟩ :=
        tupleHashLoop_terms key subparts props hdef entries 0 hk hnc hs
      obtain ⟨h0, hlt⟩ := parts_sum_lt subparts hcard hrel hnodup
      rw [← cardinality_tuple key subparts] at hlt
      rw [zero_add] at hloop
      refine ⟨_, hloop, h0, hlt, ?_⟩
      intro hsh
      simp only [Part.hash, hsh, Bool.false_eq_true, if_false]
      by_cases he : entries.length = 0
      · have hnil : entries = [] := List.length_eq_zero.mp he
        subst hnil
        cases hrel
        simp
      · rw [if_neg he, hloop]
        simp only [ge_iff_le, not_le.mpr hlt, if_false, bigint_ne_string]
    constructor
    · cases hsh : shadows subparts "hash" with
      | true => simp [Part.hash, hsh]
      | false =>
        rcases tupleHashLoop_outcome key subparts props hdef entries 0 hk hs with
          ⟨r, hr⟩ | hr | hr
        · obtain ⟨n, _, _, _, hh⟩ :=
            hreturns (tupleHashLoop_values key subparts props hdef entries 0 r hr).1
          rw [hh hsh]
          simp
        · simp only [Part.hash, hsh, Bool.false_eq_true, if_false]
          split
          · simp
          · rw [hr]; simp
        · simp only [Part.hash, hsh, Bool.false_eq_true, if_false]
          split
          · simp
          · rw [hr]; simp
    · intro hplain
      have hsh : shadows subparts "hash" = false :=
        shadows_eq_false (fun p hp => (hplain p hp).2)
      obtain ⟨n, h1, h2, h3, h4⟩ := hreturns (by
        intro e he
        obtain ⟨child, hc, hkey⟩ := hk e he
        rw [← hkey]
        exact (hplain child hc).1)
      exact ⟨n, h1, h2, h3, h4 hsh⟩
  · intro hbuilt hplain child hmem
    obtain ⟨_, props, hdef⟩ := constructs_choice hbuilt
    obtain ⟨i, hget⟩ := List.mem_iff_get?.mp hmem
    have hsh : shadows subparts "hash" = false :=
      shadows_eq_false (fun p hp => (hplain p hp).2)
    have hsub := getMember_key hdef hget (hplain child hmem).1 "offsets" key
      (Part.choice key subparts).cardinality
    have hle := offset_add_le subparts hget
    rw [← cardinality_choice key subparts] at hle
    have hoff := tableGet_offsets_nonneg subparts i
    have hc := hcard child hmem
    constructor
    · refine ⟨tableGet (offsets subparts) i, ?_, hoff, by omega⟩
      have hlt : ¬ tableGet (offsets subparts) i ≥ (Part.choice key subparts).cardinality := by
        omega
      simp only [Part.hash, hsh, Bool.false_eq_true, hsub, add_zero, hlt, if_false,
        bigint_ne_string]
    · intro sub v hv
      obtain ⟨m, rfl⟩ := hash_bigint child sub v hv
      have hm0 := hash_nonneg sub child m hv
      have hmlt := hash_lt child sub m hv hc
      refine ⟨tableGet (offsets subparts) i + m, ?_, by omega, by omega⟩
      have hlt : ¬ tableGet (offsets subparts) i + m ≥ (Part.choice key subparts).cardinality := by
        omega
      simp only [Part.hash, hsh, Bool.false_eq_true, hsub, hv, hlt, if_false, bigint_ne_string]
  · intro p model v hc hv
    obtain ⟨n, rfl⟩ := hash_bigint p model v hv
    exact ⟨n, rfl, hash_nonneg model p n hv, hash_lt p model n hv hc⟩

/-- The bound of C17 on the example `Tuple`, for the mapping with the last
state of both subparts. -/
theorem C17_range_guard_unreachable_witness :
    (∀ child ∈ [choiceOf "a" ["x", "y"], choiceOf "b" ["p", "q", "r"]], 1 ≤ child.cardinality) ∧
      exampleTuple.constructs = true ∧
      (∀ child ∈ [choiceOf "a" ["x", "y"], choiceOf "b" ["p", "q", "r"]],
        child.key ≠ "cardinality" ∧ child.key ≠ "hash") ∧
      ∃ n, tupleHashLoop "t" [choiceOf "a" ["x", "y"], choiceOf "b" ["p", "q", "r"]]
          [("a", .str "y"), ("b", .str "r")] 0 = .ok n ∧ 0 ≤ n ∧
        n < exampleTuple.cardinality ∧
        exampleTuple.hash (.obj [("a", .str "y"), ("b", .str "r")]) "bigint" = .ok (.bigint n) :=
  ⟨by decide, by decide, by decide,
    ((C17_range_guard_unreachable "t" [choiceOf "a" ["x", "y"], choiceOf "b" ["p", "q", "r"]]
      (by decide)).1 (by decide) [("a", .str "y"), ("b", .str "r")] (by decide) (by decide)
      (by
        intro e he child hc hkey
        simp only [List.mem_cons, List.mem_singleton, List.not_mem_nil, or_false] at he hc
        rcases he with rfl | rfl <;> rcases hc with rfl | rfl <;>
          first | exact ⟨_, rfl⟩ | exact absurd hkey (by decide))).2 (by decide)⟩

/-- Claim C18 as stated fails: in `Choice("c", ["a", Choice("e", [])])`, which
is built and has cardinality 1, the subpart `e` has offset 1, and `hash` of
the string `"e"` and of the mapping with the entry `e: {}` throw a
`RangeError` at the guard of line 182; and in `Choice("c", ["cardinality",
"b"])`, which is built, `hash` of the string `"cardinality"` throws a
`ReferenceError`, because `this.cardinality` is the BigInt. -/
theorem C18_shorthand_hits_range_guard :
    (Part.choice "c" [.base "a", .choice "e" []]).constructs = true ∧
      (Part.choice "c" [.base "a", .choice "e" []]).cardinality = 1 ∧
      tableGet (offsets [.base "a", .choice "e" []]) 1 = 1 ∧
      (Part.choice "c" [.base "a", .choice "e" []]).hash (.str "e") "bigint" =
        .error .rangeError ∧
      (Part.choice "e" []).hash (.obj []) "bigint" = .ok (.bigint 0) ∧
      (Part.choice "c" [.base "a", .choice "e" []]).hash (.obj [("e", .obj [])]) "bigint" =
        .error .rangeError ∧
      (Part.choice "c" [.base "cardinality", .base "b"]).constructs = true ∧
      (Part.choice "c" [.base "cardinality", .base "b"]).hash (.str "cardinality") "bigint" =
        .error .referenceError :=
  ⟨by decide, by decide, by decide, rfl, rfl, rfl, by decide, rfl⟩

/-- Claim C18, amended: in a `Choice` that was built and in whose tree no key
of a subpart names a member of a node object (`memberNames`), for a subpart
`child` at position `i`: `hash` of the string `child.key` is `offset(i)` when
that is below the cardinality and throws a `RangeError` otherwise; when
`child.hash(sub, "bigint")` returns `m`, `hash` of the mapping with the entry
`child.key: sub` is `offset(i) + m` when that is below the cardinality and
throws a `RangeError` otherwise; when the subpart has cardinality at least 1,
of whatever size, both are below the cardinality, and the string and the
mapping with the entry `child.key: child.unhash(0n, "bigint")` hash to the
same integer `offset(i)`; the empty mapping hashes to 0. -/
theorem C18_choice_hash_value (key : String) (subparts : List Part)
    (hbuilt : (Part.choice key subparts).constructs = true)
    (hplain : (Part.choice key subparts).plainKeys = true) (i : Nat) (child : Part)
    (hget : subparts.get? i = some child) :
    ((Part.choice key subparts).hash (.str child.key) "bigint" =
      if tableGet (offsets subparts) i < (Part.choice key subparts).cardinality
      then .ok (.bigint (tableGet (offsets subparts) i)) else .error .rangeError) ∧
    (∀ sub m, child.hash sub "bigint" = .ok (.bigint m) →
      (Part.choice key subparts).hash (.obj [(child.key, sub)]) "bigint" =
        if tableGet (offsets subparts) i + m < (Part.choice key subparts).cardinality
        then .ok (.bigint (tableGet (offsets subparts) i + m)) else .error .rangeError) ∧
    (1 ≤ child.cardinality →
      (Part.choice key subparts).hash (.str child.key) "bigint" =
        .ok (.bigint (tableGet (offsets subparts) i)) ∧
      (∀ sub m, child.hash sub "bigint" = .ok (.bigint m) →
        (Part.choice key subparts).hash (.obj [(child.key, sub)]) "bigint" =
          .ok (.bigint (tableGet (offsets subparts) i + m))) ∧
      ∃ z, child.unhash 0 = .ok z ∧
        (Part.choice key subparts).hash (.obj [(child.key, z)]) "bigint" =
          .ok (.bigint (tableGet (offsets subparts) i))) ∧
    (Part.choice key subparts).hash (.obj []) "bigint" = .ok (.bigint 0) := by
  obtain ⟨hall, props, hdef⟩ := constructs_choice hbuilt
  have hpl := plainKeys_choice hplain child (List.get?_mem hget)
  have hsh : shadows subparts "hash" = false :=
    shadows_plain (plainKeys_choice hplain) (by decide)
  have hsub := getMember_key hdef hget (ne_cardinality hpl.1) "offsets" key
    (Part.choice key subparts).cardinality
  have hle := offset_add_le subparts hget
  rw [← cardinality_choice key subparts] at hle
  have hstr : (Part.choice key subparts).hash (.str child.key) "bigint" =
      if tableGet (offsets subparts) i < (Part.choice key subparts).cardinality
      then .ok (.bigint (tableGet (offsets subparts) i)) else .error .rangeError := by
    simp only [Part.hash, hsh, Bool.false_eq_true, hsub, add_zero, ge_iff_le, bigint_ne_string,
      if_false]
    by_cases h : tableGet (offsets subparts) i < (Part.choice key subparts).cardinality
    · rw [if_pos h, if_neg (not_le.mpr h)]
    · rw [if_neg h, if_pos (not_lt.mp h)]
  have hobj : ∀ sub m, child.hash sub "bigint" = .ok (.bigint m) →
      (Part.choice key subparts).hash (.obj [(child.key, sub)]) "bigint" =
        if tableGet (offsets subparts) i + m < (Part.choice key subparts).cardinality
        then .ok (.bigint (tableGet (offsets subparts) i + m)) else .error .rangeError := by
    intro sub m hm
    simp only [Part.hash, hsh, Bool.false_eq_true, hsub, hm, ge_iff_le, bigint_ne_string,
      if_false]
    by_cases h : tableGet (offsets subparts) i + m < (Part.choice key subparts).cardinality
    · rw [if_pos h, if_neg (not_le.mpr h)]
    · rw [if_neg h, if_pos (not_lt.mp h)]
  refine ⟨hstr, hobj, ?_, by simp only [Part.hash, hsh, Bool.false_eq_true, if_false]⟩
  intro hc
  have hs : (Part.choice key subparts).hash (.str child.key) "bigint" =
      .ok (.bigint (tableGet (offsets subparts) i)) := by
    rw [hstr, if_pos (by omega)]
  have ho : ∀ sub m, child.hash sub "bigint" = .ok (.bigint m) →
      (Part.choice key subparts).hash (.obj [(child.key, sub)]) "bigint" =
        .ok (.bigint (tableGet (offsets subparts) i + m)) := by
    intro sub m hm
    have := hash_lt child sub m hm hc
    rw [hobj sub m hm, if_pos (by omega)]
  refine ⟨hs, ho, ?_⟩
  obtain ⟨z, hz, hhz⟩ := roundtrip_bigint child (hall child (List.get?_mem hget)) hpl.2 0
    (le_refl _) (by omega)
  refine ⟨z, hz, ?_⟩
  rw [ho z 0 hhz, add_zero]

/-- The values of C18 on `Choice("c", ["a", Choice("d", ["p", "q"])])` for the
subpart `d` at position 1, of cardinality 2. -/
theorem C18_choice_hash_value_witness :
    (Part.choice "c" [.base "a", .choice "d" [.base "p", .base "q"]]).constructs = true ∧
      (Part.choice "c" [.base "a", .choice "d" [.base "p", .base "q"]]).plainKeys = true ∧
      [Part.base "a", Part.choice "d" [.base "p", .base "q"]].get? 1 =
        some (Part.choice "d" [.base "p", .base "q"]) ∧
      (Part.choice "c" [.base "a", .choice "d" [.base "p", .base "q"]]).hash (.str "d") "bigint" =
        .ok (.bigint 1) ∧
      (Part.choice "c" [.base "a", .choice "d" [.base "p", .base "q"]]).hash
        (.obj [("d", .str "q")]) "bigint" = .ok (.bigint (1 + 1)) :=
  ⟨by decide, by decide, rfl,
    ((C18_choice_hash_value "c" [.base "a", .choice "d" [.base "p", .base "q"]] (by decide)
      (by decide) 1 (.choice "d" [.base "p", .base "q"]) rfl).2.2.1 (by decide)).1,
    ((C18_choice_hash_value "c" [.base "a", .choice "d" [.base "p", .base "q"]] (by decide)
      (by decide) 1 (.choice "d" [.base "p", .base "q"]) rfl).2.2.1 (by decide)).2.1
      (.str "q") 1 rfl⟩

/-- Claim C19: for every `Tuple` that was built and every mapping over keys of
subparts on which `hash` succeeds, `hash(model, "bigint")` is the sum, over
the entries, of the hash of the value against the subpart with that key times
the product of the cardinalities of the subparts after it; the example
`Tuple` has cardinality 6, hashes `a: "y", b: "r"` to 5 and decodes 5 to that
mapping. -/
theorem C19_tuple_positional_value (key : String) (subparts : List Part)
    (hbuilt : (Part.tuple key subparts).constructs = true)
    (entries : List (String × Model))
    (hkeys : ∀ e ∈ entries, ∃ child ∈ subparts, child.key = e.1) (v : Hash)
    (hhash : (Part.tuple key subparts).hash (.obj entries) "bigint" = .ok v) :
    (∃ parts : List (Nat × Int),
      List.Forall₂ (fun e t => ∃ child, subparts.get? t.1 = some child ∧ child.key = e.1 ∧
        child.hash e.2 "bigint" = .ok (.bigint t.2)) entries parts ∧
      v = .bigint ((parts.map (fun t =>
        t.2 * ((subparts.drop (t.1 + 1)).map Part.cardinality).prod)).sum)) ∧
    exampleTuple.cardinality = 6 ∧
    exampleTuple.hash (.obj [("a", .str "y"), ("b", .str "r")]) "bigint" = .ok (.bigint 5) ∧
    exampleTuple.unhash 5 = .ok (.obj [("a", .str "y"), ("b", .str "r")]) := by
  refine ⟨?_, by decide, rfl, rfl⟩
  obtain ⟨_, props, hdef⟩ := constructs_tuple hbuilt
  rcases tuple_hash_ok hhash with ⟨he, hv⟩ | ⟨_, n, hl, _, hv⟩
  · have hnil : entries = [] := List.length_eq_zero.mp he
    subst hnil
    exact ⟨[], List.Forall₂.nil, by simp [hv]⟩
  · simp only [bigint_ne_string, if_false] at hv
    obtain ⟨hnc, hvals⟩ := tupleHashLoop_values key subparts props hdef entries 0 n hl
    obtain ⟨parts, hrel, hloop⟩ :=
      tupleHashLoop_terms key subparts props hdef entries 0 hkeys hnc hvals
    rw [hl, zero_add] at hloop
    simp only [Except.ok.injEq] at hloop
    exact ⟨parts, hrel, by rw [hv, hloop]⟩

/-- The positional value of C19 on the example `Tuple`, for the mapping that
gives only the key `a`. -/
theorem C19_tuple_positional_value_witness :
    exampleTuple.constructs = true ∧
      (∀ e ∈ [("a", Model.str "y")],
        ∃ child ∈ [choiceOf "a" ["x", "y"], choiceOf "b" ["p", "q", "r"]], child.key = e.1) ∧
      exampleTuple.hash (.obj [("a", .str "y")]) "bigint" = .ok (.bigint 3) ∧
      ∃ parts : List (Nat × Int),
        List.Forall₂ (fun e t => ∃ child,
          [choiceOf "a" ["x", "y"], choiceOf "b" ["p", "q", "r"]].get? t.1 = some child ∧
          child.key = e.1 ∧ child.hash e.2 "bigint" = .ok (.bigint t.2))
          [("a", Model.str "y")] parts ∧
        Hash.bigint 3 = .bigint ((parts.map (fun t => t.2 *
          (([choiceOf "a" ["x", "y"], choiceOf "b" ["p", "q", "r"]].drop (t.1 + 1)).map
            Part.cardinality).prod)).sum) :=
  ⟨by decide, by decide, rfl,
    (C19_tuple_positional_value "t" [choiceOf "a" ["x", "y"], choiceOf "b" ["p", "q", "r"]]
      (by decide) [("a", .str "y")] (by decide) (.bigint 3) rfl).1⟩

/-- Claim C20: for all integers `0 <= m < n`, either `encode(m)` has fewer
symbols than `encode(n)`, or both have the same number of symbols and
`encode(m)` comes before `encode(n)` in the lexicographic order in which
symbols are compared by their position in `Part.radix`; so the number of
symbols never goes down as `n` grows. -/
theorem C20_encode_shortlex (m n : Int) (h0 : 0 ≤ m) (hmn : m < n) :
    ((encode m).length < (encode n).length ∨
      ((encode m).length = (encode n).length ∧
        List.Lex (fun x y => indexOf radix.toList x < indexOf radix.toList y)
          (encode m).toList (encode n).toList)) ∧
    (encode m).length ≤ (encode n).length := by
  obtain ⟨c, b, hclo, hchi, hlen, _, hval, henc⟩ := encode_bits m h0
  obtain ⟨d, b', hdlo, hdhi, hlen', _, hval', henc'⟩ := encode_bits n (by omega)
  have hlm : (encode m).length = c := by
    show (encode m).toList.length = c
    rw [henc, (encodeSymbols_length c b hlen).1]
  have hln : (encode n).length = d := by
    show (encode n).toList.length = d
    rw [henc', (encodeSymbols_length d b' hlen').1]
  rw [hlm, hln]
  rcases Nat.lt_trichotomy c d with h | h | h
  · exact ⟨Or.inl h, by omega⟩
  · subst h
    refine ⟨Or.inr ⟨rfl, ?_⟩, le_refl _⟩
    rw [henc, henc']
    apply encodeSymbols_lex c b b' hlen hlen'
    have : (parseBinary b : Int) < (parseBinary b' : Int) := by omega
    exact_mod_cast this
  · exfalso
    have := charmLengthOffset_mono (show d + 1 ≤ c from h)
    omega

/-- The order of C20 at `m = 64`, `n = 65`, where the number of symbols goes
up from 1 to 2. -/
theorem C20_encode_shortlex_witness :
    (0 : Int) ≤ 64 ∧ (64 : Int) < 65 ∧ (encode 64).length ≤ (encode 65).length ∧
      ((encode 64).length < (encode 65).length ∨
        ((encode 64).length = (encode 65).length ∧
          List.Lex (fun x y => indexOf radix.toList x < indexOf radix.toList y)
            (encode 64).toList (encode 65).toList)) :=
  ⟨by decide, by decide, (C20_encode_shortlex 64 65 (by decide) (by decide)).2,
    (C20_encode_shortlex 64 65 (by decide) (by decide)).1⟩

end Mphf
